import Mathlib

/-!
Verification of the `OAuth2Token` n8n node
(`nodes/OAuth2Token/OAuth2Token.node.ts` and its compiled variants).

The development has two layers:

* a pure model `JVal` of JavaScript/JSON values used for credential
  records and for the result of `JSON.parse(JSON.stringify(-))`;
* an explicit-heap model (`Heap`, `JSVal`, `JSObj`) of mutable
  JavaScript objects, used to reason about the per-item deep copy,
  mutation and aliasing behaviour of the `execute` loop.
-/

namespace OAuth2Token

/-- Pure JavaScript values (`undefined` included), as trees.  Object
fields are kept in insertion order, as in a JS engine. -/
inductive JVal where
  | null : JVal
  | undef : JVal
  | bool (b : Bool) : JVal
  | num (n : Int) : JVal
  | str (s : String) : JVal
  | arr (elems : List JVal) : JVal
  | obj (fields : List (String × JVal)) : JVal
deriving Repr

/-- JavaScript truthiness of a `JVal`. -/
def truthy : JVal → Bool
  | .null => false
  | .undef => false
  | .bool b => b
  | .num n => n != 0
  | .str s => s ≠ ""
  | .arr _ => true
  | .obj _ => true

/-- Property access `v.k`: the field value if `v` is an object with the
key, `undefined` otherwise (as for property access on a non-object
primitive; access on `null`/`undefined` never occurs unguarded in the
modelled code). -/
def getField : JVal → String → JVal
  | .obj fields, k =>
      match fields.find? (fun p => p.1 == k) with
      | some p => p.2
      | none => .undef
  | _, _ => (.undef)

/-- JavaScript `a || b`. -/
def jsOr (a b : JVal) : JVal := if truthy a then a else b

/-- JavaScript optional chaining `v?.k`. -/
def optChain (v : JVal) (k : String) : JVal :=
  match v with
  | .null => .undef
  | .undef => .undef
  | _ => getField v k

/-- Token extraction of the current source
(`OAuth2Token.node.ts`, step 3 of `execute`, lines 169-179): probes
`accessToken`, `access_token`, `token`, then `oauthTokenData` with
`tokenData.access_token || tokenData.accessToken`. -/
def extractToken (cred : JVal) : JVal :=
  if truthy (getField cred "accessToken") then getField cred "accessToken"
  else if truthy (getField cred "access_token") then getField cred "access_token"
  else if truthy (getField cred "token") then getField cred "token"
  else if truthy (getField cred "oauthTokenData") then
    jsOr (getField (getField cred "oauthTokenData") "access_token")
         (getField (getField cred "oauthTokenData") "accessToken")
  else (.undef)

/-- Token extraction of the legacy compiled build
(`OAuth2Token.node.js`, lines 66-87): same as `extractToken` but with
the two extra nested probes `oauth.access_token` and
`data.access_token` before the `oauthTokenData` branch. -/
def extractTokenLegacy (cred : JVal) : JVal :=
  if truthy (getField cred "accessToken") then getField cred "accessToken"
  else if truthy (getField cred "access_token") then getField cred "access_token"
  else if truthy (getField cred "token") then getField cred "token"
  else if truthy (getField cred "oauth") &&
          truthy (getField (getField cred "oauth") "access_token") then
    getField (getField cred "oauth") "access_token"
  else if truthy (getField cred "data") &&
          truthy (getField (getField cred "data") "access_token") then
    getField (getField cred "data") "access_token"
  else if truthy (getField cred "oauthTokenData") then
    jsOr (getField (getField cred "oauthTokenData") "access_token")
         (getField (getField cred "oauthTokenData") "accessToken")
  else (.undef)

/-! ## The mutable-object (heap) model

JavaScript objects are mutable and aliasable.  To settle the claims
about deep copying and mutation independence, items are modelled in an
explicit heap: object values are addresses, and the heap maps addresses
to object contents. -/

/-- Primitive JavaScript values (stored inline, not heap-allocated). -/
inductive JSPrim where
  | null : JSPrim
  | undef : JSPrim
  | bool (b : Bool) : JSPrim
  | num (n : Int) : JSPrim
  | str (s : String) : JSPrim
deriving DecidableEq, Repr

/-- A runtime JavaScript value: a primitive or a reference to a heap
object. -/
inductive JSVal where
  | prim (p : JSPrim) : JSVal
  | ref (a : Nat) : JSVal
deriving DecidableEq, Repr

/-- Contents of one heap object: a plain object (ordered fields) or an
array. -/
inductive JSObj where
  | obj (fields : List (String × JSVal)) : JSObj
  | arr (elems : List JSVal) : JSObj
deriving DecidableEq, Repr

/-- The heap: an allocation counter and an association list from
addresses to object contents (most recent allocation first). -/
structure Heap where
  next : Nat
  mem : List (Nat × JSObj)
deriving DecidableEq, Repr

def Heap.lookup (h : Heap) (a : Nat) : Option JSObj :=
  (h.mem.find? (fun p => p.1 == a)).map Prod.snd

/-- Allocate one object, returning the new heap and the fresh address. -/
def Heap.alloc (h : Heap) (o : JSObj) : Heap × Nat :=
  (⟨h.next + 1, (h.next, o) :: h.mem⟩, h.next)

/-- JavaScript `obj[k] = v` on the field list: replaces the value of an
existing key in place, or appends the key at the end (JS insertion
order). -/
def updFields : List (String × JSVal) → String → JSVal → List (String × JSVal)
  | [], k, v => [(k, v)]
  | (k', v') :: rest, k, v =>
      if k' = k then (k', v) :: rest else (k', v') :: updFields rest k v

/-- `obj[k] = v` on object contents (a named property assignment on an
array value does not touch its elements in this model). -/
def setObjField : JSObj → String → JSVal → JSObj
  | .obj fs, k, v => .obj (updFields fs k v)
  | .arr es, _, _ => .arr es

/-- Mutate the object stored at address `a`: `heapObj[k] = v`. -/
def Heap.setField (h : Heap) (a : Nat) (k : String) (v : JSVal) : Heap :=
  ⟨h.next, h.mem.map (fun p => if p.1 = a then (p.1, setObjField p.2 k v) else p)⟩

/-- The pure tree produced by parsing serialized output, per prim:
`undefined` is not JSON-representable (`none`). -/
def primToJVal : JSPrim → Option JVal
  | .null => some .null
  | .undef => none
  | .bool b => some (.bool b)
  | .num n => some (.num n)
  | .str s => some (.str s)

/-- Generic serialization pass over an object's field list, given the
serialization `rv` of each value.  A field whose value serializes to
`undefined` (`some none`) is dropped, as `JSON.stringify` does; a throw
(`none`) propagates. -/
def readFieldsWith (rv : JSVal → Option (Option JVal)) :
    List (String × JSVal) → Option (List (String × JVal))
  | [] => some []
  | (k, v) :: rest =>
      match rv v with
      | none => none
      | some none => readFieldsWith rv rest
      | some (some w) => (readFieldsWith rv rest).map (fun l => (k, w) :: l)

/-- Generic serialization pass over array elements: an element that
serializes to `undefined` becomes `null`, as `JSON.stringify` does. -/
def readElemsWith (rv : JSVal → Option (Option JVal)) :
    List JSVal → Option (List JVal)
  | [] => some []
  | v :: rest =>
      match rv v with
      | none => none
      | some none => (readElemsWith rv rest).map (fun l => .null :: l)
      | some (some w) => (readElemsWith rv rest).map (fun l => w :: l)

/-- `JSON.parse(JSON.stringify(v))` as a pure tree: `none` models a
throw (circular structure, or `undefined` at the top level, which makes
`JSON.parse` throw); `some none` models serializing to `undefined`
mid-structure.  `anc` is the stack of ancestor addresses used for cycle
detection, exactly as `JSON.stringify` detects cycles through the
recursion stack; `fuel` only bounds the recursion and is in excess for
every acyclic read. -/
def readVal (h : Heap) : Nat → List Nat → JSVal → Option (Option JVal)
  | 0, _, _ => none
  | _ + 1, _, .prim p => some (primToJVal p)
  | fuel + 1, anc, .ref a =>
      if a ∈ anc then none
      else
        match h.lookup a with
        | none => none
        | some (.obj fs) =>
            (readFieldsWith (readVal h fuel (a :: anc)) fs).map (fun l => some (.obj l))
        | some (.arr es) =>
            (readElemsWith (readVal h fuel (a :: anc)) es).map (fun l => some (.arr l))

/-- Fuel that is always sufficient for an acyclic read: one more than
the number of heap entries (a non-repeating chain of lookups cannot be
longer than the heap). -/
def stdFuel (h : Heap) : Nat := h.mem.length + 1

mutual

/-- `JSON.parse` of a serialized tree: materialize a pure tree as fresh
heap objects.  Primitives are stored inline; every object and array
node of the tree becomes a newly allocated heap object. -/
def allocJVal (h : Heap) : JVal → Heap × JSVal
  | .null => (h, .prim .null)
  | .undef => (h, .prim .undef)
  | .bool b => (h, .prim (.bool b))
  | .num n => (h, .prim (.num n))
  | .str s => (h, .prim (.str s))
  | .arr es =>
      let r := allocElems h es
      (⟨r.1.next + 1, (r.1.next, .arr r.2) :: r.1.mem⟩, .ref r.1.next)
  | .obj fs =>
      let r := allocFields h fs
      (⟨r.1.next + 1, (r.1.next, .obj r.2) :: r.1.mem⟩, .ref r.1.next)

def allocFields (h : Heap) : List (String × JVal) → Heap × List (String × JSVal)
  | [] => (h, [])
  | (k, v) :: rest =>
      let r := allocJVal h v
      let r' := allocFields r.1 rest
      (r'.1, (k, r.2) :: r'.2)

def allocElems (h : Heap) : List JVal → Heap × List JSVal
  | [] => (h, [])
  | v :: rest =>
      let r := allocJVal h v
      let r' := allocElems r.1 rest
      (r'.1, r.2 :: r'.2)

end

mutual

/-- `true` when a pure tree contains no `undefined` anywhere (the trees
returned by a successful serialization round-trip have this shape). -/
def noUndef : JVal → Bool
  | .null => true
  | .undef => false
  | .bool _ => true
  | .num _ => true
  | .str _ => true
  | .arr es => noUndefElems es
  | .obj fs => noUndefFields fs

def noUndefFields : List (String × JVal) → Bool
  | [] => true
  | (_, v) :: rest => noUndef v && noUndefFields rest

def noUndefElems : List JVal → Bool
  | [] => true
  | v :: rest => noUndef v && noUndefElems rest

end

mutual

/-- Height of a pure tree: an upper bound for the fuel needed to read
back its allocation. -/
def jheight : JVal → Nat
  | .null => 1
  | .undef => 1
  | .bool _ => 1
  | .num _ => 1
  | .str _ => 1
  | .arr es => jheightElems es + 1
  | .obj fs => jheightFields fs + 1

def jheightFields : List (String × JVal) → Nat
  | [] => 0
  | (_, v) :: rest => max (jheight v) (jheightFields rest)

def jheightElems : List JVal → Nat
  | [] => 0
  | v :: rest => max (jheight v) (jheightElems rest)

end

/-- `obj[k] = v` at the pure-tree level, mirroring `updFields`. -/
def setKey : List (String × JVal) → String → JVal → List (String × JVal)
  | [], k, v => [(k, v)]
  | (k', v') :: rest, k, v =>
      if k' = k then (k', v) :: rest else (k', v') :: setKey rest k v

/-! ## Items, errors and the per-item loop (step 4 of `execute`) -/

/-- One workflow item (`INodeExecutionData`): a `json` payload, an
optional `binary` payload (always an object, kept as its address), and
the `pairedItem` index. -/
structure HItem where
  json : JSVal
  binary : Option Nat
  pairedItem : Option Nat
deriving DecidableEq, Repr

/-- Structured context carried by n8n errors: the `itemIndex` slot plus
any other pre-existing entries. -/
structure ErrCtx where
  itemIndex : Option Nat
  extra : List (String × String)
deriving DecidableEq, Repr

/-- A thrown JavaScript error: class name, message, and optional
structured `context` object. -/
structure JSError where
  name : String
  message : String
  context : Option ErrCtx
deriving DecidableEq, Repr

/-- JS `error.toString()`. -/
def errToString (e : JSError) : String :=
  if e.message = "" then e.name else e.name ++ ": " ++ e.message

/-- `TypeError` thrown by `JSON.stringify` on a circular structure. -/
def circularError : JSError :=
  ⟨"TypeError", "Converting circular structure to JSON", none⟩

/-- `SyntaxError` thrown by `JSON.parse(undefined)` (top-level payload
serializes to `undefined`). -/
def parseUndefError : JSError :=
  ⟨"SyntaxError", "Unexpected token u in JSON at position 0", none⟩

/-- `TypeError` thrown by a property assignment on a primitive in
strict mode (the compiled module runs under `use strict`). -/
def primAssignError : JSError :=
  ⟨"TypeError", "Cannot create property on primitive value", none⟩

/-- Error message used for a continue-on-fail error item:
`error.message || 'Unknown error processing item'`. -/
def cofMessage (e : JSError) : String :=
  if e.message = "" then "Unknown error processing item" else e.message

/-- The `catch` handler of the item loop when `continueOnFail()` is
false (lines 232-241): an error that already has a structured `context`
is rethrown with `context.itemIndex` set; otherwise a new
`NodeOperationError` is thrown carrying `itemIndex` and the original
error's string form. -/
def catchNonContinue (idx : Nat) (e : JSError) : JSError :=
  match e.context with
  | some c => ⟨e.name, e.message, some ⟨some idx, c.extra⟩⟩
  | none =>
      ⟨"NodeOperationError",
       if e.message = "" then "Error processing item" else e.message,
       some ⟨some idx, [("message", errToString e)]⟩⟩

/-- `item.binary ? { ...item.binary } : undefined`: a shallow copy — a
fresh object whose contents (hence the values referenced by its
fields) are shared with the source. -/
def shallowCopyBinary (h : Heap) : Option Nat → Heap × Option Nat
  | none => (h, none)
  | some a =>
      match h.lookup a with
      | some o => ((h.alloc o).1, some h.next)
      | none => ((h.alloc (.obj [])).1, some h.next)

/-- The `try` body of one loop iteration (lines 205-220): deep-clone
the `json` payload by a JSON serialization round-trip, shallow-copy
`binary`, tag with the item index, then assign the token into the
cloned payload. -/
def buildItem (f : String) (tok : JSVal) (h : Heap) (idx : Nat) (it : HItem) :
    Except JSError (Heap × HItem) :=
  match readVal h (stdFuel h) [] it.json with
  | none => .error circularError
  | some none => .error parseUndefError
  | some (some t) =>
      match (allocJVal h t).2 with
      | .ref a =>
          .ok ((shallowCopyBinary (allocJVal h t).1 it.binary).1.setField a f tok,
            ⟨.ref a, (shallowCopyBinary (allocJVal h t).1 it.binary).2, some idx⟩)
      | .prim _ => .error primAssignError

/-- The item loop (lines 203-243), generic in the body of its `try`
block: on success push the built item; on error, either push an
error-record `{ json: { error: message }, pairedItem: { item: idx } }`
and continue (continue-on-fail), or abort the whole batch through the
`catch` handler. -/
def enrichLoopG (build : Heap → Nat → HItem → Except JSError (Heap × HItem))
    (cof : Bool) : Heap → Nat → List HItem → Except JSError (Heap × List HItem)
  | h, _, [] => .ok (h, [])
  | h, idx, it :: rest =>
      match build h idx it with
      | .ok (h1, ni) =>
          match enrichLoopG build cof h1 (idx + 1) rest with
          | .ok (h', os) => .ok (h', ni :: os)
          | .error e => .error e
      | .error e =>
          if cof then
            match enrichLoopG build cof
                (h.alloc (.obj [("error", .prim (.str (cofMessage e)))])).1
                (idx + 1) rest with
            | .ok (h', os) => .ok (h', ⟨.ref h.next, none, some idx⟩ :: os)
            | .error e' => .error e'
          else .error (catchNonContinue idx e)

/-- The item loop with the actual loop body of the source. -/
def enrichLoop (cof : Bool) (f : String) (tok : JSVal) :
    Heap → Nat → List HItem → Except JSError (Heap × List HItem) :=
  enrichLoopG (buildItem f tok) cof

/-! ## Refresh trigger, credential fetch and the full `execute` -/

/-- Outcomes of the external collaborators: the result of the `n`-th
`getCredentials('oAuth2Api')` call and of the single
`requestOAuth2` probe request. -/
structure Env where
  creds : Nat → Except JSError JVal
  probe : Except JSError Unit

/-- Derivation of the probe URL when the `dummyUrl` parameter is blank
(lines 88-98): `initialCredentials.tokenUrl ||
initialCredentials.auth?.oauth_token_url || ''`. -/
def deriveDummy (initial : JVal) : JVal :=
  jsOr (getField initial "tokenUrl")
    (jsOr (optChain (getField initial "auth") "oauth_token_url") (.str ""))

/-- The `try` body of step 1 (lines 83-129).  Returns
`(refreshedCredentials, dummyUrl)` — `refreshedCredentials` is `undef`
when the variable was left unset — or the thrown error paired with the
value of `dummyUrl` at the point of the throw. -/
def refreshBody (env : Env) (d0 : JVal) : Except (JSError × JVal) (JVal × JVal) :=
  match env.creds 0 with
  | .error e => .error (e, d0)
  | .ok initial =>
      let d := if truthy d0 then d0 else deriveDummy initial
      if truthy d then
        match env.probe with
        | .error e => .error (e, d)
        | .ok _ => .ok (.undef, d)
      else .ok (initial, d)

/-- Result of step 1: the `refreshedCredentials` variable (`undef` when
unset), the `dummyUrl` variable, and the index of the next
`getCredentials` call. -/
structure RefreshOut where
  refreshed : JVal
  dummy : JVal
  nextCall : Nat
deriving Repr

/-- Step 1 with its `catch` (lines 131-143): any exception is caught;
since `refreshedCredentials` is never set before a throw, the handler
attempts one fallback `getCredentials` and swallows even that call's
failure. -/
def refreshPhase (env : Env) (d0 : JVal) : RefreshOut :=
  match refreshBody env d0 with
  | .ok (r, d) => ⟨r, d, 1⟩
  | .error (_, d) =>
      match env.creds 1 with
      | .ok c => ⟨c, d, 2⟩
      | .error _ => ⟨.undef, d, 2⟩

/-- The refetch guard of step 2 as written (line 151):
`!refreshedCredentials || (dummyUrl && !refreshedCredentials)`. -/
def step2Guard (ro : RefreshOut) : Bool :=
  !truthy ro.refreshed || (truthy ro.dummy && !truthy ro.refreshed)

/-- The simplified refetch guard: `!refreshedCredentials`. -/
def step2GuardSimple (ro : RefreshOut) : Bool :=
  !truthy ro.refreshed

/-- A `NodeOperationError` without options. -/
def nodeOpError (m : String) : JSError := ⟨"NodeOperationError", m, none⟩

def credFetchFailMsg (m : String) : String :=
  "Failed to retrieve OAuth2 credentials after refresh attempt: " ++ m

def noCredMsg : String := "Failed to retrieve OAuth2 credentials."

def noTokenMsg : String :=
  "No access token found in the OAuth2 credentials structure even after refresh attempt. Verify credential setup, authorization, and structure (e.g., check if token is nested under `oauthTokenData`)."

/-- Step 2 (lines 148-157): refetch the credentials when the guard
holds; a failure of this fetch is fatal. -/
def credentialFetch (env : Env) (guard : RefreshOut → Bool) (ro : RefreshOut) :
    Except JSError JVal :=
  if guard ro then
    match env.creds ro.nextCall with
    | .ok c => .ok c
    | .error e => .error (nodeOpError (credFetchFailMsg e.message))
  else .ok ro.refreshed

/-- Result of one `execute` invocation: the output batch (with its
final heap) or a fatal error propagated to the caller. -/
inductive ExecResult where
  | ok (h : Heap) (items : List HItem) : ExecResult
  | fatal (e : JSError) : ExecResult
deriving Repr

/-- The whole `execute` (lines 73-251), parametrized by the step-2
guard: refresh phase, credential fetch, `!refreshedCredentials` check,
token extraction with its fatal no-token check, then the item loop.
A truthy non-string token value would be an object shared by reference;
it is installed in the heap once, before the loop, as in JS. -/
def executeWith (guard : RefreshOut → Bool) (env : Env) (h : Heap)
    (items : List HItem) (cof : Bool) (f : String) (d0 : String) : ExecResult :=
  match credentialFetch env guard (refreshPhase env (.str d0)) with
  | .error e => .fatal e
  | .ok cred =>
      if truthy cred then
        if truthy (extractToken cred) then
          match enrichLoop cof f (allocJVal h (extractToken cred)).2
              (allocJVal h (extractToken cred)).1 0 items with
          | .ok (h', outs) => .ok h' outs
          | .error e => .fatal e
        else .fatal (nodeOpError noTokenMsg)
      else .fatal (nodeOpError noCredMsg)

/-- `execute` as in the source. -/
def execute (env : Env) (h : Heap) (items : List HItem) (cof : Bool)
    (f : String) (d0 : String) : ExecResult :=
  executeWith step2Guard env h items cof f d0

/-- The variant of `execute` with the simplified step-2 guard
(`!refreshedCredentials` alone). -/
def executeSimplified (env : Env) (h : Heap) (items : List HItem) (cof : Bool)
    (f : String) (d0 : String) : ExecResult :=
  executeWith step2GuardSimple env h items cof f d0

/-! ## Regions, heap well-formedness and reachability -/

/-- Every reference of a runtime value satisfies `P`. -/
def ValIn (v : JSVal) (P : Nat → Prop) : Prop :=
  match v with
  | .ref a => P a
  | .prim _ => True

/-- Every reference stored in an object's contents satisfies `P`. -/
def ObjIn (o : JSObj) (P : Nat → Prop) : Prop :=
  match o with
  | .obj fs => ∀ kv ∈ fs, ValIn kv.2 P
  | .arr es => ∀ v ∈ es, ValIn v P

/-- Well-formed heap: every entry lives below the allocation pointer
and refers only below it (no dangling and no forward references). -/
def Wf (h : Heap) : Prop :=
  ∀ p ∈ h.mem, p.1 < h.next ∧ ObjIn p.2 (fun a => a < h.next)

instance (v : JSVal) (P : Nat → Prop) [DecidablePred P] : Decidable (ValIn v P) := by
  unfold ValIn
  cases v <;> infer_instance

instance (o : JSObj) (P : Nat → Prop) [DecidablePred P] : Decidable (ObjIn o P) := by
  unfold ObjIn
  cases o <;> exact List.decidableBAll _ _

instance (h : Heap) : Decidable (Wf h) := by
  unfold Wf
  exact List.decidableBAll _ _

/-- Fresh-region heap extension (the shape produced by allocation):
old entries are untouched, new entries live in `[h.next, h1.next)` and
refer only within that region. -/
structure HExt (h h1 : Heap) : Prop where
  next_le : h.next ≤ h1.next
  pre : ∃ pre, h1.mem = pre ++ h.mem
      ∧ ∀ p ∈ pre, (h.next ≤ p.1 ∧ p.1 < h1.next)
          ∧ ObjIn p.2 (fun x => h.next ≤ x ∧ x < h1.next)
  cover : ∀ a, h.next ≤ a → a < h1.next →
      ∃ o, h1.lookup a = some o ∧ ObjIn o (fun x => h.next ≤ x ∧ x < h1.next)

/-- Reachability of a heap address from a runtime value: the address
of the value itself, or any address reached through stored object
fields or array elements.  This is the set of mutable locations a
JavaScript program can affect starting from the value. -/
inductive Reach (h : Heap) : JSVal → Nat → Prop where
  | here (a : Nat) : Reach h (.ref a) a
  | objField (a b : Nat) (fs : List (String × JSVal)) (kv : String × JSVal) :
      h.lookup a = some (.obj fs) → kv ∈ fs → Reach h kv.2 b → Reach h (.ref a) b
  | arrElem (a b : Nat) (es : List JSVal) (v : JSVal) :
      h.lookup a = some (.arr es) → v ∈ es → Reach h v b → Reach h (.ref a) b

/-! ## Concrete records, environments and heaps used in examples -/

/-- A credential record whose token lives only under
`oauth.access_token` (recognized shape 4 of the spec). -/
def credOauthOnly : JVal := .obj [("oauth", .obj [("access_token", .str "tok")])]

/-- A credential record whose token lives only under
`data.access_token` (recognized shape 5 of the spec). -/
def credDataOnly : JVal := .obj [("data", .obj [("access_token", .str "tok2")])]

/-- An environment whose credential store consistently returns `c` and
whose probe succeeds. -/
def constEnv (c : JVal) : Env := ⟨fun _ => .ok c, .ok ()⟩

/-- A record with a non-empty top-level `access_token` together with a
nested `oauthTokenData` holding another token — but also a non-empty
top-level `accessToken`. -/
def credC6 : JVal :=
  .obj [("accessToken", .str "A"), ("access_token", .str "xyz"),
        ("oauthTokenData", .obj [("accessToken", .str "should-not-be-used")])]

/-- The credential record of the spec's own C6 scenario:
`{access_token: "xyz", oauthTokenData: {accessToken: ...}}`. -/
def credC6scenario : JVal :=
  .obj [("access_token", .str "xyz"),
        ("oauthTokenData", .obj [("accessToken", .str "should-not-be-used")])]

/-- A heap with a single self-referential object: its payload is
circular, so `JSON.stringify` on it throws. -/
def cyclicHeap : Heap := ⟨1, [(0, .obj [("self", .ref 0)])]⟩

/-- The heap of the spec's C2 scenario: one payload object `{foo: 1}`
at address 0. -/
def scenarioHeap : Heap := ⟨1, [(0, .obj [("foo", .prim (.num 1))])]⟩

/-! ## Phase-level lemmas -/

theorem credentialFetch_congr (env1 env2 : Env) (hcreds : env1.creds = env2.creds)
    (g : RefreshOut → Bool) (ro : RefreshOut) :
    credentialFetch env1 g ro = credentialFetch env2 g ro := by
  simp only [credentialFetch, hcreds]

/-- With a credential store that consistently answers `c`, step 2
always delivers `c`, along every path of the refresh phase. -/
theorem credentialFetch_const (env : Env) (c : JVal)
    (hc : ∀ n, env.creds n = .ok c) (d0 : JVal) :
    credentialFetch env step2Guard (refreshPhase env d0) = .ok c := by
  unfold refreshPhase refreshBody
  rw [hc 0]
  simp only
  cases htd : truthy (if truthy d0 then d0 else deriveDummy c) with
  | false =>
      simp only [htd, Bool.false_eq_true, if_false]
      cases htc : truthy c with
      | false => simp [credentialFetch, step2Guard, htc, hc 1]
      | true => simp [credentialFetch, step2Guard, htc]
  | true =>
      simp only [htd, if_true]
      cases hpr : env.probe with
      | ok u => simp [credentialFetch, step2Guard, truthy, hc 1]
      | error e =>
          rw [hc 1]
          cases htc : truthy c with
          | false => simp [credentialFetch, step2Guard, htc, htd, hc 2]
          | true => simp [credentialFetch, step2Guard, htc, htd]

/-- The refresh phase ignores the probe error's payload. -/
theorem refreshPhase_probe_error (env : Env) (e1 e2 : JSError) (d0 : JVal) :
    refreshPhase { env with probe := .error e1 } d0
      = refreshPhase { env with probe := .error e2 } d0 := by
  unfold refreshPhase refreshBody
  cases hc0 : env.creds 0 with
  | error e => rfl
  | ok initial =>
      simp only
      cases htd : truthy (if truthy d0 then d0 else deriveDummy initial) <;> simp [htd]

/-! ## Claims about token extraction and the phase structure -/

/-- Claim C1: the spec says token extraction probes six shapes,
including nested `oauth.access_token` and `data.access_token`, and
that a record containing only one of those nested shapes yields its
value.  The current source (`OAuth2Token.node.ts`) omits those two
probes — even though its comment says it uses "the same logic as
before" — so such records yield no token and `execute` fails fatally;
the legacy build (`part_003`) did probe them and returns the value, as
the spec describes. -/
theorem claim1_oauth_data_shapes_dropped :
    extractToken credOauthOnly = .undef
    ∧ extractToken credDataOnly = .undef
    ∧ extractTokenLegacy credOauthOnly = .str "tok"
    ∧ extractTokenLegacy credDataOnly = .str "tok2"
    ∧ execute (constEnv credOauthOnly) ⟨0, []⟩ [⟨.prim .null, none, none⟩]
        false "accessToken" "u" = .fatal (nodeOpError noTokenMsg)
    ∧ execute (constEnv credDataOnly) ⟨0, []⟩ [⟨.prim .null, none, none⟩]
        false "accessToken" "u" = .fatal (nodeOpError noTokenMsg) :=
  ⟨rfl, rfl, rfl, rfl, rfl, rfl⟩

/-- Claim C6, counterexample: the claim's second half quantifies over
every record containing a non-empty top-level `access_token` together
with a token-bearing `oauthTokenData`, and asserts extraction returns
the `access_token` value; `credC6` is such a record, yet extraction
returns its `accessToken` value `"A"`, not `"xyz"`. -/
theorem claim6_counterexample :
    truthy (getField credC6 "access_token") = true
    ∧ truthy (getField (getField credC6 "oauthTokenData") "accessToken") = true
    ∧ extractToken credC6 = .str "A"
    ∧ extractToken credC6 ≠ getField credC6 "access_token" := by
  refine ⟨rfl, rfl, rfl, ?_⟩
  intro hcontra
  have h1 : extractToken credC6 = .str "A" := rfl
  have h2 : getField credC6 "access_token" = .str "xyz" := rfl
  rw [h1, h2] at hcontra
  injection hcontra with hs
  exact absurd hs (by decide)

/-- Claim C6 (amended): top-level priority wins — a record with a
non-empty top-level `accessToken` and a non-empty `access_token`
yields the `accessToken` value; and a record with *no* non-empty
top-level `accessToken` but a non-empty top-level `access_token`
together with a token-bearing `oauthTokenData` yields the top-level
`access_token` value. -/
theorem claim6_top_level_priority :
    (∀ cred, truthy (getField cred "accessToken") = true →
        truthy (getField cred "access_token") = true →
        extractToken cred = getField cred "accessToken")
    ∧ (∀ cred, truthy (getField cred "accessToken") = false →
        truthy (getField cred "access_token") = true →
        truthy (getField (getField cred "oauthTokenData") "accessToken") = true →
        extractToken cred = getField cred "access_token") := by
  constructor
  · intro cred h1 _
    simp [extractToken, h1]
  · intro cred h1 h2 _
    simp [extractToken, h1, h2]

/-- Witness for `claim6_top_level_priority` at concrete records. -/
theorem claim6_top_level_priority_witness :
    extractToken credC6 = getField credC6 "accessToken"
    ∧ extractToken credC6scenario = getField credC6scenario "access_token" :=
  ⟨claim6_top_level_priority.1 credC6 rfl rfl,
   claim6_top_level_priority.2 credC6scenario rfl rfl rfl⟩

/-- Claim C9: the step-2 refetch guard
`!refreshedCredentials || (dummyUrl && !refreshedCredentials)` is
equivalent to `!refreshedCredentials`, and `execute` is behaviourally
equal to the variant using the simplified guard. -/
theorem claim9_guard_equivalence :
    (∀ ro, step2Guard ro = step2GuardSimple ro)
    ∧ ∀ env h items cof f d0,
        execute env h items cof f d0 = executeSimplified env h items cof f d0 := by
  have hg : ∀ ro, step2Guard ro = step2GuardSimple ro := by
    intro ro
    unfold step2Guard step2GuardSimple
    cases truthy ro.refreshed <;> cases truthy ro.dummy <;> rfl
  refine ⟨hg, ?_⟩
  intro env h items cof f d0
  unfold execute executeSimplified executeWith
  have : credentialFetch env step2Guard (refreshPhase env (.str d0))
      = credentialFetch env step2GuardSimple (refreshPhase env (.str d0)) := by
    unfold credentialFetch
    rw [hg]
  rw [this]

/-- Claim C5: a credential record that yields a token under none of the
recognized shapes makes the whole `execute` fail fatally with the
descriptive token-not-found error, independently of the input batch
(so zero output records are produced and no item is processed). -/
theorem claim5_token_not_found_fatal (env : Env) (c : JVal)
    (hc : ∀ n, env.creds n = .ok c)
    (htr : truthy c = true)
    (hx : truthy (extractToken c) = false) :
    ∀ h items cof f d0,
      execute env h items cof f d0 = .fatal (nodeOpError noTokenMsg) := by
  intro h items cof f d0
  unfold execute executeWith
  rw [credentialFetch_const env c hc]
  simp [htr, hx]

/-- Witness for `claim5_token_not_found_fatal`: a record with only
client configuration and no token. -/
theorem claim5_token_not_found_fatal_witness :
    execute (constEnv (.obj [("clientId", .str "x")])) ⟨0, []⟩
        [⟨.prim .null, none, none⟩] false "accessToken" ""
      = .fatal (nodeOpError noTokenMsg) :=
  claim5_token_not_found_fatal (constEnv (.obj [("clientId", .str "x")]))
    (.obj [("clientId", .str "x")]) (fun _ => rfl) rfl rfl
    ⟨0, []⟩ [⟨.prim .null, none, none⟩] false "accessToken" ""

/-- Claim C8: the refresh-trigger phase never aborts the operation by
itself — it always completes having made at most two credential
fetches (the initial one plus at most one fallback), the payload of a
probe failure never reaches the caller, and when the credential store
answers consistently the probe's outcome does not affect the result of
`execute` at all. -/
theorem claim8_refresh_never_aborts :
    (∀ (env : Env) (d0 : JVal), (refreshPhase env d0).nextCall ≤ 2)
    ∧ (∀ (env : Env) (h : Heap) (items : List HItem) (cof : Bool) (f d0 : String)
        (e1 e2 : JSError),
        execute { env with probe := .error e1 } h items cof f d0
          = execute { env with probe := .error e2 } h items cof f d0)
    ∧ (∀ (env : Env) (c : JVal), (∀ n, env.creds n = .ok c) →
        ∀ (h : Heap) (items : List HItem) (cof : Bool) (f d0 : String)
          (pr : Except JSError Unit),
          execute { env with probe := pr } h items cof f d0
            = execute env h items cof f d0) := by
  refine ⟨?_, ?_, ?_⟩
  · intro env d0
    unfold refreshPhase
    cases refreshBody env d0 with
    | ok r => simp
    | error e =>
        cases env.creds 1 with
        | ok c => simp
        | error e' => simp
  · intro env h items cof f d0 e1 e2
    unfold execute executeWith
    rw [refreshPhase_probe_error env e1 e2,
        credentialFetch_congr { env with probe := .error e1 }
          { env with probe := .error e2 } rfl]
  · intro env c hc h items cof f d0 pr
    unfold execute executeWith
    have h1 : credentialFetch { env with probe := pr } step2Guard
        (refreshPhase { env with probe := pr } (.str d0)) = .ok c :=
      credentialFetch_const { env with probe := pr } c hc (.str d0)
    have h2 : credentialFetch env step2Guard (refreshPhase env (.str d0)) = .ok c :=
      credentialFetch_const env c hc (.str d0)
    rw [h1, h2]

/-! ## Lemmas about regions and heap well-formedness -/

theorem ValIn.mono_val {v : JSVal} {P Q : Nat → Prop} (hv : ValIn v P)
    (hpq : ∀ a, P a → Q a) : ValIn v Q := by
  cases v with
  | prim p => trivial
  | ref a => exact hpq a hv

theorem ObjIn.mono_obj {o : JSObj} {P Q : Nat → Prop} (ho : ObjIn o P)
    (hpq : ∀ a, P a → Q a) : ObjIn o Q := by
  cases o with
  | obj fs => intro kv hkv; exact (ho kv hkv).mono_val hpq
  | arr es => intro v hv; exact (ho v hv).mono_val hpq

theorem Heap.lookup_mem {h : Heap} {a : Nat} {o : JSObj}
    (hl : h.lookup a = some o) : (a, o) ∈ h.mem := by
  unfold Heap.lookup at hl
  cases hf : h.mem.find? (fun p => p.1 == a) with
  | none => rw [hf] at hl; cases hl
  | some p =>
      rw [hf] at hl
      have hm := List.mem_of_find?_eq_some hf
      have hpred := List.find?_some hf
      have h1 : p.1 = a := by simpa using hpred
      have h2 : p.2 = o := by cases hl; rfl
      have : p = (a, o) := by cases p; simp_all
      exact this ▸ hm

theorem Wf.lookup {h : Heap} (hw : Wf h) {a : Nat} {o : JSObj}
    (hl : h.lookup a = some o) :
    a < h.next ∧ ObjIn o (fun x => x < h.next) :=
  hw (a, o) (Heap.lookup_mem hl)

theorem find?_append_left_none {α : Type} (l1 l2 : List α) (p : α → Bool)
    (hnone : ∀ x ∈ l1, p x = false) :
    (l1 ++ l2).find? p = l2.find? p := by
  induction l1 with
  | nil => rfl
  | cons x xs ih =>
      have hx : p x = false := hnone x (by simp)
      simp only [List.cons_append, List.find?, hx]
      exact ih (fun y hy => hnone y (by simp [hy]))

theorem setField_next (h : Heap) (a : Nat) (k : String) (v : JSVal) :
    (h.setField a k v).next = h.next := rfl

theorem setField_memLength (h : Heap) (a : Nat) (k : String) (v : JSVal) :
    (h.setField a k v).mem.length = h.mem.length := by
  simp [Heap.setField]

theorem find?_set_map (mem : List (Nat × JSObj)) (a a' : Nat) (k : String)
    (v : JSVal) :
    ((mem.map (fun p => if p.1 = a then (p.1, setObjField p.2 k v) else p)).find?
        (fun p => p.1 == a')) =
      if a' = a then
        (mem.find? (fun p => p.1 == a')).map (fun p => (p.1, setObjField p.2 k v))
      else mem.find? (fun p => p.1 == a') := by
  induction mem with
  | nil => by_cases ha : a' = a <;> simp [ha, List.find?]
  | cons p rest ih =>
      obtain ⟨b, o⟩ := p
      by_cases hp : b = a
      · by_cases hpa : b = a'
        · have ha : a' = a := hpa ▸ hp
          simp [List.find?, hp, hpa, ha]
        · have hne : (b == a') = false := by simpa using hpa
          have ha : (a == a') = false := hp ▸ hne
          by_cases haa : a' = a
          · exact absurd (haa ▸ hp) hpa
          · simp only [List.map_cons, hp, if_true, List.find?, hne, ha]
            rw [ih]
      · by_cases hpa : b = a'
        · have ha : ¬(a' = a) := fun hc => hp (hpa.trans hc)
          have heq : (b == a') = true := by simpa using hpa
          simp [List.find?, hp, heq, ha]
        · have hne : (b == a') = false := by simpa using hpa
          simp only [List.map_cons, hp, if_false, List.find?, hne]
          rw [ih]

theorem lookup_setField (h : Heap) (a a' : Nat) (k : String) (v : JSVal) :
    (h.setField a k v).lookup a' =
      if a' = a then (h.lookup a').map (fun o => setObjField o k v)
      else h.lookup a' := by
  unfold Heap.setField Heap.lookup
  simp only
  rw [find?_set_map]
  by_cases ha : a' = a
  · simp only [ha, if_true]
    cases h.mem.find? (fun p => p.1 == a) <;> rfl
  · simp only [ha, if_false]

theorem lookup_setField_ne (h : Heap) {a a' : Nat} (hne : a' ≠ a)
    (k : String) (v : JSVal) :
    (h.setField a k v).lookup a' = h.lookup a' := by
  rw [lookup_setField, if_neg hne]

theorem lookup_allocOne (h : Heap) (o : JSObj) (a : Nat) :
    (h.alloc o).1.lookup a = if a = h.next then some o else h.lookup a := by
  unfold Heap.alloc Heap.lookup
  by_cases ha : a = h.next
  · have : (h.next == a) = true := by simpa using ha.symm
    simp [List.find?, this, ha]
  · have : (h.next == a) = false := by
      simp only [beq_eq_false_iff_ne, ne_eq]
      exact fun hc => ha hc.symm
    simp [List.find?, this, ha]

/-- `updFields` keeps all values inside a region, provided the new
value is in it. -/
theorem ObjIn_updFields {P : Nat → Prop} {v : JSVal} (hv : ValIn v P) :
    ∀ (fs : List (String × JSVal)) (k : String),
      (∀ kv ∈ fs, ValIn kv.2 P) →
      ∀ kv ∈ updFields fs k v, ValIn kv.2 P := by
  intro fs
  induction fs with
  | nil =>
      intro k _ kv hkv
      simp only [updFields, List.mem_singleton] at hkv
      exact hkv ▸ hv
  | cons p rest ih =>
      obtain ⟨k', v'⟩ := p
      intro k ho kv hkv
      by_cases hk : k' = k
      · simp only [updFields, if_pos hk] at hkv
        rcases List.mem_cons.1 hkv with hh | ht
        · exact hh ▸ hv
        · exact ho _ (List.mem_cons_of_mem _ ht)
      · simp only [updFields, if_neg hk] at hkv
        rcases List.mem_cons.1 hkv with hh | ht
        · exact ho _ (hh ▸ List.mem_cons_self _ _)
        · exact ih k (fun q hq => ho q (List.mem_cons_of_mem _ hq)) _ ht

theorem ObjIn_setObjField {o : JSObj} {P : Nat → Prop} {k : String} {v : JSVal}
    (ho : ObjIn o P) (hv : ValIn v P) : ObjIn (setObjField o k v) P := by
  cases o with
  | obj fs => exact ObjIn_updFields hv fs k ho
  | arr es => exact ho

theorem setField_wf {h : Heap} (hwf : Wf h) {a : Nat} {k : String} {v : JSVal}
    (hv : ValIn v (fun x => x < h.next)) : Wf (h.setField a k v) := by
  intro p hp
  simp only [Heap.setField, List.mem_map] at hp
  obtain ⟨q, hq, hqe⟩ := hp
  obtain ⟨hq1, hq2⟩ := hwf q hq
  by_cases hqa : q.1 = a
  · simp only [hqa, if_true] at hqe
    refine hqe ▸ ⟨by simpa [hqa] using hq1, ?_⟩
    exact ObjIn_setObjField hq2 hv
  · simp only [hqa, if_false] at hqe
    exact hqe ▸ ⟨hq1, hq2⟩

theorem HExt.refl (h : Heap) : HExt h h := by
  refine ⟨Nat.le_refl _, ⟨[], rfl, ?_⟩, ?_⟩
  · intro p hp; cases hp
  · intro a h1 h2
    exact absurd (Nat.lt_of_le_of_lt h1 h2) (lt_irrefl _)

theorem HExt.lookup_old {h h1 : Heap} (he : HExt h h1) :
    ∀ a, a < h.next → h1.lookup a = h.lookup a := by
  intro a ha
  obtain ⟨pre, hmem, hpre⟩ := he.pre
  have hnone : ∀ x ∈ pre, (fun (p : Nat × JSObj) => p.1 == a) x = false := by
    intro p hp
    have hb := (hpre p hp).1.1
    have hne : p.1 ≠ a := fun hc => absurd hb (by rw [hc]; exact Nat.not_le.mpr ha)
    simp [hne]
  unfold Heap.lookup
  rw [hmem, find?_append_left_none _ _ _ hnone]

theorem HExt.memLength {h h1 : Heap} (he : HExt h h1) :
    h.mem.length ≤ h1.mem.length := by
  obtain ⟨pre, hmem, _⟩ := he.pre
  rw [hmem]
  simp

theorem HExt.wf {h h1 : Heap} (he : HExt h h1) (hw : Wf h) : Wf h1 := by
  intro p hp
  obtain ⟨pre, hmem, hpre⟩ := he.pre
  rw [hmem] at hp
  rcases List.mem_append.1 hp with hin | hin
  · obtain ⟨⟨hb1, hb2⟩, ho⟩ := hpre p hin
    exact ⟨hb2, ho.mono_obj (fun a ha => ha.2)⟩
  · obtain ⟨hb, ho⟩ := hw p hin
    exact ⟨Nat.lt_of_lt_of_le hb he.next_le,
      ho.mono_obj (fun a ha => Nat.lt_of_lt_of_le ha he.next_le)⟩

theorem HExt.trans {h1 h2 h3 : Heap} (e12 : HExt h1 h2) (e23 : HExt h2 h3) :
    HExt h1 h3 := by
  refine ⟨Nat.le_trans e12.next_le e23.next_le, ?_, ?_⟩
  · obtain ⟨p12, hm12, hp12⟩ := e12.pre
    obtain ⟨p23, hm23, hp23⟩ := e23.pre
    refine ⟨p23 ++ p12, by rw [hm23, hm12, List.append_assoc], ?_⟩
    intro p hp
    rcases List.mem_append.1 hp with hin | hin
    · obtain ⟨⟨hb1, hb2⟩, ho⟩ := hp23 p hin
      exact ⟨⟨Nat.le_trans e12.next_le hb1, hb2⟩,
        ho.mono_obj (fun a ha => ⟨Nat.le_trans e12.next_le ha.1, ha.2⟩)⟩
    · obtain ⟨⟨hb1, hb2⟩, ho⟩ := hp12 p hin
      exact ⟨⟨hb1, Nat.lt_of_lt_of_le hb2 e23.next_le⟩,
        ho.mono_obj (fun a ha => ⟨ha.1, Nat.lt_of_lt_of_le ha.2 e23.next_le⟩)⟩
  · intro a ha1 ha3
    by_cases ha2 : a < h2.next
    · obtain ⟨o, hlk, ho⟩ := e12.cover a ha1 ha2
      refine ⟨o, ?_, ho.mono_obj (fun x hx => ⟨hx.1, Nat.lt_of_lt_of_le hx.2 e23.next_le⟩)⟩
      rw [e23.lookup_old a ha2]
      exact hlk
    · obtain ⟨o, hlk, ho⟩ := e23.cover a (Nat.le_of_not_lt ha2) ha3
      exact ⟨o, hlk, ho.mono_obj (fun x hx => ⟨Nat.le_trans e12.next_le hx.1, hx.2⟩)⟩

theorem lookup_mk_cons (n : Nat) (b : Nat) (o : JSObj)
    (mem : List (Nat × JSObj)) (a : Nat) :
    (Heap.mk n ((b, o) :: mem)).lookup a
      = if b = a then some o else (Heap.mk n mem).lookup a := by
  unfold Heap.lookup
  by_cases hb : b = a
  · simp [List.find?, hb]
  · have hbeq : (b == a) = false := by simp [hb]
    simp [List.find?, hb, hbeq]

mutual

theorem allocJVal_spec : ∀ (t : JVal) (h : Heap),
    HExt h (allocJVal h t).1
    ∧ ValIn (allocJVal h t).2 (fun x => h.next ≤ x ∧ x < (allocJVal h t).1.next)
  | .null, h => ⟨HExt.refl h, trivial⟩
  | .undef, h => ⟨HExt.refl h, trivial⟩
  | .bool b, h => ⟨HExt.refl h, trivial⟩
  | .num n, h => ⟨HExt.refl h, trivial⟩
  | .str s, h => ⟨HExt.refl h, trivial⟩
  | .obj fs, h => by
      obtain ⟨heF, hvals, _⟩ := allocFields_spec fs h
      simp only [allocJVal]
      constructor
      · refine ⟨?_, ?_, ?_⟩
        · exact Nat.le_trans heF.next_le (Nat.le_succ _)
        · obtain ⟨pre, hmem, hpre⟩ := heF.pre
          refine ⟨((allocFields h fs).1.next, .obj (allocFields h fs).2) :: pre,
            by simp [hmem], ?_⟩
          intro p hp
          rcases List.mem_cons.1 hp with hh | ht
          · subst hh
            refine ⟨⟨heF.next_le, Nat.lt_succ_self _⟩, ?_⟩
            intro kv hkv
            exact (hvals kv hkv).mono_val
              (fun x hx => ⟨hx.1, Nat.lt_succ_of_lt hx.2⟩)
          · obtain ⟨⟨hb1, hb2⟩, ho⟩ := hpre p ht
            exact ⟨⟨hb1, Nat.lt_succ_of_lt hb2⟩,
              ho.mono_obj (fun x hx => ⟨hx.1, Nat.lt_succ_of_lt hx.2⟩)⟩
        · intro a ha1 ha2
          by_cases heq : a = (allocFields h fs).1.next
          · refine ⟨.obj (allocFields h fs).2, ?_, ?_⟩
            · rw [heq, lookup_mk_cons, if_pos rfl]
            · intro kv hkv
              exact (hvals kv hkv).mono_val
                (fun x hx => ⟨hx.1, Nat.lt_succ_of_lt hx.2⟩)
          · have ha2' : a < (allocFields h fs).1.next :=
              Nat.lt_of_le_of_ne (Nat.lt_succ_iff.mp ha2) heq
            obtain ⟨o, hlk, ho⟩ := heF.cover a ha1 ha2'
            refine ⟨o, ?_, ho.mono_obj (fun x hx => ⟨hx.1, Nat.lt_succ_of_lt hx.2⟩)⟩
            rw [lookup_mk_cons, if_neg (fun hc => heq hc.symm)]
            exact hlk
      · exact ⟨heF.next_le, Nat.lt_succ_self _⟩
  | .arr es, h => by
      obtain ⟨heE, hvals, _⟩ := allocElems_spec es h
      simp only [allocJVal]
      constructor
      · refine ⟨?_, ?_, ?_⟩
        · exact Nat.le_trans heE.next_le (Nat.le_succ _)
        · obtain ⟨pre, hmem, hpre⟩ := heE.pre
          refine ⟨((allocElems h es).1.next, .arr (allocElems h es).2) :: pre,
            by simp [hmem], ?_⟩
          intro p hp
          rcases List.mem_cons.1 hp with hh | ht
          · subst hh
            refine ⟨⟨heE.next_le, Nat.lt_succ_self _⟩, ?_⟩
            intro v hv
            exact (hvals v hv).mono_val
              (fun x hx => ⟨hx.1, Nat.lt_succ_of_lt hx.2⟩)
          · obtain ⟨⟨hb1, hb2⟩, ho⟩ := hpre p ht
            exact ⟨⟨hb1, Nat.lt_succ_of_lt hb2⟩,
              ho.mono_obj (fun x hx => ⟨hx.1, Nat.lt_succ_of_lt hx.2⟩)⟩
        · intro a ha1 ha2
          by_cases heq : a = (allocElems h es).1.next
          · refine ⟨.arr (allocElems h es).2, ?_, ?_⟩
            · rw [heq, lookup_mk_cons, if_pos rfl]
            · intro v hv
              exact (hvals v hv).mono_val
                (fun x hx => ⟨hx.1, Nat.lt_succ_of_lt hx.2⟩)
          · have ha2' : a < (allocElems h es).1.next :=
              Nat.lt_of_le_of_ne (Nat.lt_succ_iff.mp ha2) heq
            obtain ⟨o, hlk, ho⟩ := heE.cover a ha1 ha2'
            refine ⟨o, ?_, ho.mono_obj (fun x hx => ⟨hx.1, Nat.lt_succ_of_lt hx.2⟩)⟩
            rw [lookup_mk_cons, if_neg (fun hc => heq hc.symm)]
            exact hlk
      · exact ⟨heE.next_le, Nat.lt_succ_self _⟩

theorem allocFields_spec : ∀ (fs : List (String × JVal)) (h : Heap),
    HExt h (allocFields h fs).1
    ∧ (∀ kv ∈ (allocFields h fs).2,
        ValIn kv.2 (fun x => h.next ≤ x ∧ x < (allocFields h fs).1.next))
    ∧ List.Forall₂ (fun (q : String × JSVal) (pm : String × JVal) => q.1 = pm.1)
        (allocFields h fs).2 fs
  | [], h => ⟨HExt.refl h, fun kv hkv => absurd hkv (List.not_mem_nil kv), .nil⟩
  | (k, v) :: rest, h => by
      obtain ⟨heV, hval⟩ := allocJVal_spec v h
      obtain ⟨heR, hvals, hkeys⟩ := allocFields_spec rest (allocJVal h v).1
      simp only [allocFields]
      refine ⟨heV.trans heR, ?_, .cons rfl hkeys⟩
      intro kv hkv
      rcases List.mem_cons.1 hkv with hh | ht
      · subst hh
        exact hval.mono_val (fun x hx => ⟨hx.1, Nat.lt_of_lt_of_le hx.2 heR.next_le⟩)
      · exact (hvals kv ht).mono_val (fun x hx => ⟨Nat.le_trans heV.next_le hx.1, hx.2⟩)

theorem allocElems_spec : ∀ (es : List JVal) (h : Heap),
    HExt h (allocElems h es).1
    ∧ (∀ v ∈ (allocElems h es).2,
        ValIn v (fun x => h.next ≤ x ∧ x < (allocElems h es).1.next))
    ∧ (allocElems h es).2.length = es.length
  | [], h => ⟨HExt.refl h, fun v hv => absurd hv (List.not_mem_nil v), rfl⟩
  | v :: rest, h => by
      obtain ⟨heV, hval⟩ := allocJVal_spec v h
      obtain ⟨heR, hvals, hlen⟩ := allocElems_spec rest (allocJVal h v).1
      simp only [allocElems]
      refine ⟨heV.trans heR, ?_, by simp [hlen]⟩
      intro w hw
      rcases List.mem_cons.1 hw with hh | ht
      · subst hh
        exact hval.mono_val (fun x hx => ⟨hx.1, Nat.lt_of_lt_of_le hx.2 heR.next_le⟩)
      · exact (hvals w ht).mono_val (fun x hx => ⟨Nat.le_trans heV.next_le hx.1, hx.2⟩)

end

/-! ## Frame, monotonicity and read-back lemmas for the serializer -/

theorem readFieldsWith_congr {rv1 rv2 : JSVal → Option (Option JVal)} :
    ∀ fs : List (String × JSVal), (∀ kv ∈ fs, rv1 kv.2 = rv2 kv.2) →
      readFieldsWith rv1 fs = readFieldsWith rv2 fs := by
  intro fs
  induction fs with
  | nil => intro _; rfl
  | cons p rest ih =>
      intro hrv
      obtain ⟨k, v⟩ := p
      have hv : rv1 v = rv2 v := hrv (k, v) (List.mem_cons_self _ _)
      have hr := ih (fun kv hkv => hrv kv (List.mem_cons_of_mem _ hkv))
      simp only [readFieldsWith, hv, hr]

theorem readElemsWith_congr {rv1 rv2 : JSVal → Option (Option JVal)} :
    ∀ es : List JSVal, (∀ v ∈ es, rv1 v = rv2 v) →
      readElemsWith rv1 es = readElemsWith rv2 es := by
  intro es
  induction es with
  | nil => intro _; rfl
  | cons v rest ih =>
      intro hrv
      have hv : rv1 v = rv2 v := hrv v (List.mem_cons_self _ _)
      have hr := ih (fun w hw => hrv w (List.mem_cons_of_mem _ hw))
      simp only [readElemsWith, hv, hr]

/-- Frame lemma: a read only depends on the heap inside a region that
is closed under references and contains the root. -/
theorem readVal_congr (h h' : Heap) (P : Nat → Prop)
    (hag : ∀ a, P a → h'.lookup a = h.lookup a)
    (hcl : ∀ a o, P a → h.lookup a = some o → ObjIn o P) :
    ∀ fuel anc v, ValIn v P → readVal h' fuel anc v = readVal h fuel anc v := by
  intro fuel
  induction fuel with
  | zero => intro anc v _; rfl
  | succ n ih =>
      intro anc v hv
      cases v with
      | prim p => rfl
      | ref a =>
          simp only [readVal]
          by_cases hmem : a ∈ anc
          · rw [if_pos hmem, if_pos hmem]
          · rw [if_neg hmem, if_neg hmem, hag a hv]
            cases hlk : h.lookup a with
            | none => rfl
            | some o =>
                have ho := hcl a o hv hlk
                cases o with
                | obj fs =>
                    simp only
                    rw [readFieldsWith_congr fs
                      (fun kv hkv => ih (a :: anc) kv.2 (ho kv hkv))]
                | arr es =>
                    simp only
                    rw [readElemsWith_congr es
                      (fun w hw => ih (a :: anc) w (ho w hw))]

theorem readFieldsWith_mono {rv1 rv2 : JSVal → Option (Option JVal)} :
    ∀ fs : List (String × JSVal),
      (∀ kv ∈ fs, ∀ x, rv1 kv.2 = some x → rv2 kv.2 = some x) →
      ∀ l, readFieldsWith rv1 fs = some l → readFieldsWith rv2 fs = some l := by
  intro fs
  induction fs with
  | nil => intro _ l hl; exact hl
  | cons p rest ih =>
      obtain ⟨k, v⟩ := p
      intro hrv l hl
      simp only [readFieldsWith] at hl ⊢
      cases hv1 : rv1 v with
      | none => rw [hv1] at hl; cases hl
      | some x =>
          rw [hv1] at hl
          rw [hrv (k, v) (List.mem_cons_self _ _) x hv1]
          have ihr := ih (fun kv hkv => hrv kv (List.mem_cons_of_mem _ hkv))
          cases x with
          | none => exact ihr l hl
          | some w =>
              cases hrest : readFieldsWith rv1 rest with
              | none => rw [hrest] at hl; cases hl
              | some l' => rw [hrest] at hl; rw [ihr l' hrest]; exact hl

theorem readElemsWith_mono {rv1 rv2 : JSVal → Option (Option JVal)} :
    ∀ es : List JSVal,
      (∀ v ∈ es, ∀ x, rv1 v = some x → rv2 v = some x) →
      ∀ l, readElemsWith rv1 es = some l → readElemsWith rv2 es = some l := by
  intro es
  induction es with
  | nil => intro _ l hl; exact hl
  | cons v rest ih =>
      intro hrv l hl
      simp only [readElemsWith] at hl ⊢
      cases hv1 : rv1 v with
      | none => rw [hv1] at hl; cases hl
      | some x =>
          rw [hv1] at hl
          rw [hrv v (List.mem_cons_self _ _) x hv1]
          have ihr := ih (fun w hw => hrv w (List.mem_cons_of_mem _ hw))
          cases x with
          | none =>
              cases hrest : readElemsWith rv1 rest with
              | none => rw [hrest] at hl; cases hl
              | some l' => rw [hrest] at hl; rw [ihr l' hrest]; exact hl
          | some w =>
              cases hrest : readElemsWith rv1 rest with
              | none => rw [hrest] at hl; cases hl
              | some l' => rw [hrest] at hl; rw [ihr l' hrest]; exact hl

/-- Fuel monotonicity: a read that succeeds keeps its value at any
larger fuel. -/
theorem readVal_mono (h : Heap) :
    ∀ fuel fuel' anc v r, fuel ≤ fuel' → readVal h fuel anc v = some r →
      readVal h fuel' anc v = some r := by
  intro fuel
  induction fuel with
  | zero => intro fuel' anc v r _ hr; cases hr
  | succ n ih =>
      intro fuel' anc v r hle hr
      obtain ⟨m, rfl⟩ : ∃ m, fuel' = m + 1 := ⟨fuel' - 1, by omega⟩
      cases v with
      | prim p => exact hr
      | ref a =>
          simp only [readVal] at hr ⊢
          by_cases hmem : a ∈ anc
          · rw [if_pos hmem] at hr; cases hr
          · rw [if_neg hmem] at hr ⊢
            cases hlk : h.lookup a with
            | none => rw [hlk] at hr; cases hr
            | some o =>
                rw [hlk] at hr
                cases o with
                | obj fs =>
                    simp only at hr ⊢
                    cases hfs : readFieldsWith (readVal h n (a :: anc)) fs with
                    | none => rw [hfs] at hr; cases hr
                    | some l =>
                        rw [hfs] at hr
                        rw [readFieldsWith_mono fs
                          (fun kv _ x hx => ih m (a :: anc) kv.2 x (by omega) hx) l hfs]
                        exact hr
                | arr es =>
                    simp only at hr ⊢
                    cases hes : readElemsWith (readVal h n (a :: anc)) es with
                    | none => rw [hes] at hr; cases hr
                    | some l =>
                        rw [hes] at hr
                        rw [readElemsWith_mono es
                          (fun w _ x hx => ih m (a :: anc) w x (by omega) hx) l hes]
                        exact hr

theorem readFieldsWith_noUndef {rv : JSVal → Option (Option JVal)} :
    ∀ (fs : List (String × JSVal)) (l : List (String × JVal)),
      (∀ kv ∈ fs, ∀ w, rv kv.2 = some (some w) → noUndef w = true) →
      readFieldsWith rv fs = some l → noUndefFields l = true := by
  intro fs
  induction fs with
  | nil => intro l _ hl; cases hl; rfl
  | cons p rest ih =>
      obtain ⟨k, v⟩ := p
      intro l hrv hl
      simp only [readFieldsWith] at hl
      cases hv1 : rv v with
      | none => rw [hv1] at hl; cases hl
      | some x =>
          rw [hv1] at hl
          cases x with
          | none => exact ih l (fun kv hkv => hrv kv (List.mem_cons_of_mem _ hkv)) hl
          | some w =>
              cases hrest : readFieldsWith rv rest with
              | none => rw [hrest] at hl; cases hl
              | some l' =>
                  rw [hrest] at hl
                  cases hl
                  simp only [noUndefFields]
                  rw [hrv (k, v) (List.mem_cons_self _ _) w hv1,
                    ih l' (fun kv hkv => hrv kv (List.mem_cons_of_mem _ hkv)) hrest]
                  rfl

theorem readElemsWith_noUndef {rv : JSVal → Option (Option JVal)} :
    ∀ (es : List JSVal) (l : List JVal),
      (∀ v ∈ es, ∀ w, rv v = some (some w) → noUndef w = true) →
      readElemsWith rv es = some l → noUndefElems l = true := by
  intro es
  induction es with
  | nil => intro l _ hl; cases hl; rfl
  | cons v rest ih =>
      intro l hrv hl
      simp only [readElemsWith] at hl
      cases hv1 : rv v with
      | none => rw [hv1] at hl; cases hl
      | some x =>
          rw [hv1] at hl
          cases x with
          | none =>
              cases hrest : readElemsWith rv rest with
              | none => rw [hrest] at hl; cases hl
              | some l' =>
                  rw [hrest] at hl
                  cases hl
                  simp only [noUndefElems]
                  rw [ih l' (fun w hw => hrv w (List.mem_cons_of_mem _ hw)) hrest]
                  rfl
          | some w =>
              cases hrest : readElemsWith rv rest with
              | none => rw [hrest] at hl; cases hl
              | some l' =>
                  rw [hrest] at hl
                  cases hl
                  simp only [noUndefElems]
                  rw [hrv v (List.mem_cons_self _ _) w hv1,
                    ih l' (fun w hw => hrv w (List.mem_cons_of_mem _ hw)) hrest]
                  rfl

/-- A successful serialization never contains `undefined`. -/
theorem readVal_noUndef (h : Heap) :
    ∀ fuel anc v t, readVal h fuel anc v = some (some t) → noUndef t = true := by
  intro fuel
  induction fuel with
  | zero => intro anc v t hr; cases hr
  | succ n ih =>
      intro anc v t hr
      cases v with
      | prim p =>
          simp only [readVal] at hr
          cases p <;> cases hr <;> rfl
      | ref a =>
          simp only [readVal] at hr
          by_cases hmem : a ∈ anc
          · rw [if_pos hmem] at hr; cases hr
          · rw [if_neg hmem] at hr
            cases hlk : h.lookup a with
            | none => rw [hlk] at hr; cases hr
            | some o =>
                rw [hlk] at hr
                cases o with
                | obj fs =>
                    simp only at hr
                    cases hfs : readFieldsWith (readVal h n (a :: anc)) fs with
                    | none => rw [hfs] at hr; cases hr
                    | some l =>
                        rw [hfs] at hr
                        cases hr
                        exact readFieldsWith_noUndef fs l
                          (fun kv _ w hw => ih (a :: anc) kv.2 w hw) hfs
                | arr es =>
                    simp only at hr
                    cases hes : readElemsWith (readVal h n (a :: anc)) es with
                    | none => rw [hes] at hr; cases hr
                    | some l =>
                        rw [hes] at hr
                        cases hr
                        exact readElemsWith_noUndef es l
                          (fun w _ x hx => ih (a :: anc) w x hx) hes

theorem jheight_pos : ∀ t : JVal, 1 ≤ jheight t := by
  intro t
  cases t <;> simp [jheight]

theorem readFieldsWith_of_forall2 (g : Heap) (anc : List Nat) :
    ∀ {l : List (String × JSVal)} {m : List (String × JVal)},
      List.Forall₂ (fun (q : String × JSVal) (pm : String × JVal) =>
        q.1 = pm.1 ∧ ∀ fuel, jheight pm.2 ≤ fuel →
          readVal g fuel anc q.2 = some (some pm.2)) l m →
      ∀ fl, jheightFields m ≤ fl →
      readFieldsWith (readVal g fl anc) l = some m := by
  intro l m hf
  induction hf with
  | nil => intro fl _; rfl
  | @cons q pm l1 l2 hab hrest ih =>
      intro fl hfl
      obtain ⟨kq, vq⟩ := q
      obtain ⟨k, v⟩ := pm
      obtain ⟨hk, hread⟩ := hab
      simp only at hk
      subst hk
      simp only [jheightFields] at hfl
      obtain ⟨h1, h2⟩ := Nat.max_le.mp hfl
      simp only [readFieldsWith]
      rw [hread fl h1, ih fl h2]
      rfl

theorem readElemsWith_of_forall2 (g : Heap) (anc : List Nat) :
    ∀ {l : List JSVal} {m : List JVal},
      List.Forall₂ (fun (q : JSVal) (pm : JVal) =>
        ∀ fuel, jheight pm ≤ fuel →
          readVal g fuel anc q = some (some pm)) l m →
      ∀ fl, jheightElems m ≤ fl →
      readElemsWith (readVal g fl anc) l = some m := by
  intro l m hf
  induction hf with
  | nil => intro fl _; rfl
  | @cons q pm l1 l2 hab hrest ih =>
      intro fl hfl
      simp only [jheightElems] at hfl
      obtain ⟨h1, h2⟩ := Nat.max_le.mp hfl
      simp only [readElemsWith]
      rw [hab fl h1, ih fl h2]
      rfl

/-- Serialization of a field list after the in-place update
`obj[f] = w`: it reads back as `setKey` of the pure fields. -/
theorem readFieldsWith_updFields (g : Heap) (anc : List Nat)
    (w : JSVal) (tv : JVal) (f : String) :
    ∀ {l : List (String × JSVal)} {m : List (String × JVal)},
      List.Forall₂ (fun (q : String × JSVal) (pm : String × JVal) =>
        q.1 = pm.1 ∧ ∀ fuel, jheight pm.2 ≤ fuel →
          readVal g fuel anc q.2 = some (some pm.2)) l m →
      ∀ fl, jheightFields (setKey m f tv) ≤ fl →
      readVal g fl anc w = some (some tv) →
      readFieldsWith (readVal g fl anc) (updFields l f w) = some (setKey m f tv) := by
  intro l m hf
  induction hf with
  | nil =>
      intro fl hfl hw
      simp only [updFields, setKey, readFieldsWith, hw]
      rfl
  | @cons q pm l1 l2 hab hrest ih =>
      intro fl hfl hw
      obtain ⟨kq, vq⟩ := q
      obtain ⟨k, v⟩ := pm
      obtain ⟨hk, hread⟩ := hab
      simp only at hk
      subst hk
      by_cases hkf : kq = f
      · simp only [updFields, setKey, if_pos hkf] at hfl ⊢
        simp only [jheightFields] at hfl
        obtain ⟨h1, h2⟩ := Nat.max_le.mp hfl
        simp only [readFieldsWith, hw]
        rw [readFieldsWith_of_forall2 g anc hrest fl h2]
        rfl
      · simp only [updFields, setKey, if_neg hkf] at hfl ⊢
        simp only [jheightFields] at hfl
        obtain ⟨h1, h2⟩ := Nat.max_le.mp hfl
        simp only [readFieldsWith]
        rw [hread fl h1, ih fl h2 hw]
        rfl

mutual

/-- Reading back a freshly allocated tree yields the tree, at any
fuel at least its height, for any ancestor stack disjoint from the
freshly allocated region. -/
theorem read_allocVal : ∀ (t : JVal) (h : Heap), noUndef t = true →
    ∀ anc, (∀ b ∈ anc, b < h.next ∨ (allocJVal h t).1.next ≤ b) →
    ∀ fuel, jheight t ≤ fuel →
      readVal (allocJVal h t).1 fuel anc (allocJVal h t).2 = some (some t)
  | .null, h => by
      intro _ anc _ fuel hf
      obtain ⟨n, rfl⟩ : ∃ n, fuel = n + 1 := ⟨fuel - 1, by
        have := jheight_pos .null; omega⟩
      simp [allocJVal, readVal, primToJVal]
  | .undef, h => by
      intro hnu _ _ _ _
      simp [noUndef] at hnu
  | .bool b, h => by
      intro _ anc _ fuel hf
      obtain ⟨n, rfl⟩ : ∃ n, fuel = n + 1 := ⟨fuel - 1, by
        have := jheight_pos (.bool b); omega⟩
      simp [allocJVal, readVal, primToJVal]
  | .num m, h => by
      intro _ anc _ fuel hf
      obtain ⟨n, rfl⟩ : ∃ n, fuel = n + 1 := ⟨fuel - 1, by
        have := jheight_pos (.num m); omega⟩
      simp [allocJVal, readVal, primToJVal]
  | .str s, h => by
      intro _ anc _ fuel hf
      obtain ⟨n, rfl⟩ : ∃ n, fuel = n + 1 := ⟨fuel - 1, by
        have := jheight_pos (.str s); omega⟩
      simp [allocJVal, readVal, primToJVal]
  | .obj fs, h => by
      intro hnu anc hanc fuel hf
      have hnuF : noUndefFields fs = true := by
        simpa [noUndef] using hnu
      obtain ⟨heF, hvals, hkeys⟩ := allocFields_spec fs h
      obtain ⟨n, rfl⟩ : ∃ n, fuel = n + 1 := ⟨fuel - 1, by
        have := jheight_pos (.obj fs); omega⟩
      have hfl : jheightFields fs ≤ n := by
        have heq : jheight (.obj fs) = jheightFields fs + 1 := by simp [jheight]
        omega
      have hheap : (allocJVal h (JVal.obj fs)).1
          = Heap.mk ((allocFields h fs).1.next + 1)
              (((allocFields h fs).1.next, JSObj.obj (allocFields h fs).2)
                :: (allocFields h fs).1.mem) := by
        simp [allocJVal]
      have hres : (allocJVal h (JVal.obj fs)).2
          = JSVal.ref (allocFields h fs).1.next := by
        simp [allocJVal]
      have hnext : (allocJVal h (JVal.obj fs)).1.next
          = (allocFields h fs).1.next + 1 := by rw [hheap]
      rw [hheap, hres]
      have hnotin : (allocFields h fs).1.next ∉ anc := by
        intro hmem
        rcases hanc _ hmem with hlt | hge
        · exact absurd (Nat.lt_of_le_of_lt heF.next_le hlt) (lt_irrefl _)
        · rw [hnext] at hge
          omega
      have hanc2 : ∀ b ∈ (allocFields h fs).1.next :: anc,
          b < h.next ∨ (allocFields h fs).1.next ≤ b := by
        intro b hb
        rcases List.mem_cons.1 hb with hh | ht
        · exact Or.inr (hh ▸ Nat.le_refl _)
        · rcases hanc b ht with hlt | hge
          · exact Or.inl hlt
          · rw [hnext] at hge
            exact Or.inr (by omega)
      have hF2 := read_allocFields fs h hnuF
        ((allocFields h fs).1.next :: anc) hanc2
      simp only [readVal, if_neg hnotin]
      rw [lookup_mk_cons, if_pos rfl]
      simp only
      have hag : ∀ a, (h.next ≤ a ∧ a < (allocFields h fs).1.next) →
          (Heap.mk ((allocFields h fs).1.next + 1)
            (((allocFields h fs).1.next, JSObj.obj (allocFields h fs).2)
              :: (allocFields h fs).1.mem)).lookup a
            = (allocFields h fs).1.lookup a := by
        intro a ha
        rw [lookup_mk_cons, if_neg (by omega)]
        rfl
      have hcl : ∀ a o, (h.next ≤ a ∧ a < (allocFields h fs).1.next) →
          (allocFields h fs).1.lookup a = some o →
          ObjIn o (fun x => h.next ≤ x ∧ x < (allocFields h fs).1.next) := by
        intro a o ha hlk
        obtain ⟨o', hlk', ho'⟩ := heF.cover a ha.1 ha.2
        rw [hlk'] at hlk
        cases hlk
        exact ho'
      have hfields : readFieldsWith
          (readVal (allocFields h fs).1 n ((allocFields h fs).1.next :: anc))
          (allocFields h fs).2 = some fs :=
        readFieldsWith_of_forall2 (allocFields h fs).1
          ((allocFields h fs).1.next :: anc) hF2 n hfl
      rw [readFieldsWith_congr (allocFields h fs).2
        (fun kv hkv => readVal_congr (allocFields h fs).1 _ _ hag hcl n
          ((allocFields h fs).1.next :: anc) kv.2 (hvals kv hkv)), hfields]
      rfl
  | .arr es, h => by
      intro hnu anc hanc fuel hf
      have hnuE : noUndefElems es = true := by
        simpa [noUndef] using hnu
      obtain ⟨heE, hvals, hlen⟩ := allocElems_spec es h
      obtain ⟨n, rfl⟩ : ∃ n, fuel = n + 1 := ⟨fuel - 1, by
        have := jheight_pos (.arr es); omega⟩
      have hfl : jheightElems es ≤ n := by
        have heq : jheight (.arr es) = jheightElems es + 1 := by simp [jheight]
        omega
      have hheap : (allocJVal h (JVal.arr es)).1
          = Heap.mk ((allocElems h es).1.next + 1)
              (((allocElems h es).1.next, JSObj.arr (allocElems h es).2)
                :: (allocElems h es).1.mem) := by
        simp [allocJVal]
      have hres : (allocJVal h (JVal.arr es)).2
          = JSVal.ref (allocElems h es).1.next := by
        simp [allocJVal]
      have hnext : (allocJVal h (JVal.arr es)).1.next
          = (allocElems h es).1.next + 1 := by rw [hheap]
      rw [hheap, hres]
      have hnotin : (allocElems h es).1.next ∉ anc := by
        intro hmem
        rcases hanc _ hmem with hlt | hge
        · exact absurd (Nat.lt_of_le_of_lt heE.next_le hlt) (lt_irrefl _)
        · rw [hnext] at hge
          omega
      have hanc2 : ∀ b ∈ (allocElems h es).1.next :: anc,
          b < h.next ∨ (allocElems h es).1.next ≤ b := by
        intro b hb
        rcases List.mem_cons.1 hb with hh | ht
        · exact Or.inr (hh ▸ Nat.le_refl _)
        · rcases hanc b ht with hlt | hge
          · exact Or.inl hlt
          · rw [hnext] at hge
            exact Or.inr (by omega)
      have hE2 := read_allocElems es h hnuE
        ((allocElems h es).1.next :: anc) hanc2
      simp only [readVal, if_neg hnotin]
      rw [lookup_mk_cons, if_pos rfl]
      simp only
      have hag : ∀ a, (h.next ≤ a ∧ a < (allocElems h es).1.next) →
          (Heap.mk ((allocElems h es).1.next + 1)
            (((allocElems h es).1.next, JSObj.arr (allocElems h es).2)
              :: (allocElems h es).1.mem)).lookup a
            = (allocElems h es).1.lookup a := by
        intro a ha
        rw [lookup_mk_cons, if_neg (by omega)]
        rfl
      have hcl : ∀ a o, (h.next ≤ a ∧ a < (allocElems h es).1.next) →
          (allocElems h es).1.lookup a = some o →
          ObjIn o (fun x => h.next ≤ x ∧ x < (allocElems h es).1.next) := by
        intro a o ha hlk
        obtain ⟨o', hlk', ho'⟩ := heE.cover a ha.1 ha.2
        rw [hlk'] at hlk
        cases hlk
        exact ho'
      have helems : readElemsWith
          (readVal (allocElems h es).1 n ((allocElems h es).1.next :: anc))
          (allocElems h es).2 = some es :=
        readElemsWith_of_forall2 (allocElems h es).1
          ((allocElems h es).1.next :: anc) hE2 n hfl
      rw [readElemsWith_congr (allocElems h es).2
        (fun v hv => readVal_congr (allocElems h es).1 _ _ hag hcl n
          ((allocElems h es).1.next :: anc) v (hvals v hv)), helems]
      rfl

theorem read_allocFields : ∀ (fs : List (String × JVal)) (h : Heap),
    noUndefFields fs = true →
    ∀ anc, (∀ b ∈ anc, b < h.next ∨ (allocFields h fs).1.next ≤ b) →
      List.Forall₂ (fun (q : String × JSVal) (pm : String × JVal) =>
        q.1 = pm.1 ∧ ∀ fuel, jheight pm.2 ≤ fuel →
          readVal (allocFields h fs).1 fuel anc q.2 = some (some pm.2))
        (allocFields h fs).2 fs
  | [], h => by
      intro _ anc _
      exact List.Forall₂.nil
  | (k, v) :: rest, h => by
      intro hnu anc hanc
      have hnuP : noUndef v = true ∧ noUndefFields rest = true := by
        simpa [noUndefFields, Bool.and_eq_true] using hnu
      obtain ⟨heV, hval⟩ := allocJVal_spec v h
      obtain ⟨heR, hvalsR, _⟩ := allocFields_spec rest (allocJVal h v).1
      simp only [allocFields] at hanc ⊢
      refine List.Forall₂.cons ⟨rfl, ?_⟩ ?_
      · intro fuel hfv
        have hancV : ∀ b ∈ anc, b < h.next ∨ (allocJVal h v).1.next ≤ b := by
          intro b hb
          rcases hanc b hb with hlt | hge
          · exact Or.inl hlt
          · exact Or.inr (Nat.le_trans heR.next_le hge)
        have hvr := read_allocVal v h hnuP.1 anc hancV fuel hfv
        have hag : ∀ a, (h.next ≤ a ∧ a < (allocJVal h v).1.next) →
            (allocFields (allocJVal h v).1 rest).1.lookup a
              = (allocJVal h v).1.lookup a :=
          fun a ha => heR.lookup_old a ha.2
        have hcl : ∀ a o, (h.next ≤ a ∧ a < (allocJVal h v).1.next) →
            (allocJVal h v).1.lookup a = some o →
            ObjIn o (fun x => h.next ≤ x ∧ x < (allocJVal h v).1.next) := by
          intro a o ha hlk
          obtain ⟨o', hlk', ho'⟩ := heV.cover a ha.1 ha.2
          rw [hlk'] at hlk
          cases hlk
          exact ho'
        rw [readVal_congr (allocJVal h v).1 _ _ hag hcl fuel anc _ hval]
        exact hvr
      · have hancR : ∀ b ∈ anc, b < (allocJVal h v).1.next ∨
            (allocFields (allocJVal h v).1 rest).1.next ≤ b := by
          intro b hb
          rcases hanc b hb with hlt | hge
          · exact Or.inl (Nat.lt_of_lt_of_le hlt heV.next_le)
          · exact Or.inr hge
        exact read_allocFields rest (allocJVal h v).1 hnuP.2 anc hancR

theorem read_allocElems : ∀ (es : List JVal) (h : Heap),
    noUndefElems es = true →
    ∀ anc, (∀ b ∈ anc, b < h.next ∨ (allocElems h es).1.next ≤ b) →
      List.Forall₂ (fun (q : JSVal) (pm : JVal) =>
        ∀ fuel, jheight pm ≤ fuel →
          readVal (allocElems h es).1 fuel anc q = some (some pm))
        (allocElems h es).2 es
  | [], h => by
      intro _ anc _
      exact List.Forall₂.nil
  | v :: rest, h => by
      intro hnu anc hanc
      have hnuP : noUndef v = true ∧ noUndefElems rest = true := by
        simpa [noUndefElems, Bool.and_eq_true] using hnu
      obtain ⟨heV, hval⟩ := allocJVal_spec v h
      obtain ⟨heR, hvalsR, _⟩ := allocElems_spec rest (allocJVal h v).1
      simp only [allocElems] at hanc ⊢
      refine List.Forall₂.cons ?_ ?_
      · intro fuel hfv
        have hancV : ∀ b ∈ anc, b < h.next ∨ (allocJVal h v).1.next ≤ b := by
          intro b hb
          rcases hanc b hb with hlt | hge
          · exact Or.inl hlt
          · exact Or.inr (Nat.le_trans heR.next_le hge)
        have hvr := read_allocVal v h hnuP.1 anc hancV fuel hfv
        have hag : ∀ a, (h.next ≤ a ∧ a < (allocJVal h v).1.next) →
            (allocElems (allocJVal h v).1 rest).1.lookup a
              = (allocJVal h v).1.lookup a :=
          fun a ha => heR.lookup_old a ha.2
        have hcl : ∀ a o, (h.next ≤ a ∧ a < (allocJVal h v).1.next) →
            (allocJVal h v).1.lookup a = some o →
            ObjIn o (fun x => h.next ≤ x ∧ x < (allocJVal h v).1.next) := by
          intro a o ha hlk
          obtain ⟨o', hlk', ho'⟩ := heV.cover a ha.1 ha.2
          rw [hlk'] at hlk
          cases hlk
          exact ho'
        rw [readVal_congr (allocJVal h v).1 _ _ hag hcl fuel anc _ hval]
        exact hvr
      · have hancR : ∀ b ∈ anc, b < (allocJVal h v).1.next ∨
            (allocElems (allocJVal h v).1 rest).1.next ≤ b := by
          intro b hb
          rcases hanc b hb with hlt | hge
          · exact Or.inl (Nat.lt_of_lt_of_le hlt heV.next_le)
          · exact Or.inr hge
        exact read_allocElems rest (allocJVal h v).1 hnuP.2 anc hancR

end

theorem forall2_imp_mem {α β : Type} {R S : α → β → Prop} :
    ∀ {l : List α} {m : List β}, List.Forall₂ R l m →
      (∀ q pm, q ∈ l → R q pm → S q pm) → List.Forall₂ S l m := by
  intro l m hf
  induction hf with
  | nil => intro _; exact List.Forall₂.nil
  | @cons q pm l1 l2 hab _ ih =>
      intro himp
      exact List.Forall₂.cons (himp q pm (List.mem_cons_self _ _) hab)
        (ih (fun q' pm' hq' => himp q' pm' (List.mem_cons_of_mem _ hq')))

theorem jheight_le_setKey (tv : JVal) (f : String) :
    ∀ m : List (String × JVal), jheight tv ≤ jheightFields (setKey m f tv) := by
  intro m
  induction m with
  | nil =>
      simp [setKey, jheightFields]
  | cons p rest ih =>
      obtain ⟨k, v⟩ := p
      by_cases hk : k = f
      · simp only [setKey, if_pos hk, jheightFields]
        exact le_trans (le_max_left _ _) (le_refl _)
      · simp only [setKey, if_neg hk, jheightFields]
        exact le_trans ih (le_max_right _ _)

theorem shallowCopyBinary_facts (g : Heap) (b : Option Nat) :
    g.next ≤ (shallowCopyBinary g b).1.next
    ∧ g.mem.length ≤ (shallowCopyBinary g b).1.mem.length
    ∧ (∀ a, a < g.next → (shallowCopyBinary g b).1.lookup a = g.lookup a)
    ∧ (Wf g → Wf (shallowCopyBinary g b).1) := by
  cases b with
  | none => exact ⟨le_refl _, le_refl _, fun a _ => rfl, fun hw => hw⟩
  | some a =>
      cases hlk : g.lookup a with
      | some o =>
          simp only [shallowCopyBinary, hlk, Heap.alloc]
          refine ⟨Nat.le_succ _, by simp, ?_, ?_⟩
          · intro a' ha'
            rw [lookup_mk_cons, if_neg (by omega)]
            rfl
          · intro hw p hp
            rcases List.mem_cons.1 hp with hh | ht
            · subst hh
              exact ⟨Nat.lt_succ_self _,
                ((hw.lookup hlk).2).mono_obj (fun x hx => Nat.lt_succ_of_lt hx)⟩
            · obtain ⟨h1, h2⟩ := hw p ht
              exact ⟨Nat.lt_succ_of_lt h1, h2.mono_obj (fun x hx => Nat.lt_succ_of_lt hx)⟩
      | none =>
          simp only [shallowCopyBinary, hlk, Heap.alloc]
          refine ⟨Nat.le_succ _, by simp, ?_, ?_⟩
          · intro a' ha'
            rw [lookup_mk_cons, if_neg (by omega)]
            rfl
          · intro hw p hp
            rcases List.mem_cons.1 hp with hh | ht
            · subst hh
              refine ⟨Nat.lt_succ_self _, ?_⟩
              intro kv hkv
              cases hkv
            · obtain ⟨h1, h2⟩ := hw p ht
              exact ⟨Nat.lt_succ_of_lt h1, h2.mono_obj (fun x hx => Nat.lt_succ_of_lt hx)⟩

/-- Everything the loop invariant needs about one successful
`buildItem` step: the heap only grows, old addresses are untouched,
the new item is tagged with its index, its `json` lives in a fresh
internally-closed region, and (when the input payload read back as an
object) its deep value is the input's fields with the token merged
in. -/
theorem buildItem_facts (f : String) (p : JSPrim) (g : Heap) (idx : Nat)
    (it : HItem) (hwf : Wf g) :
    ∀ g1 ni, buildItem f (.prim p) g idx it = .ok (g1, ni) →
      Wf g1
      ∧ g.next ≤ g1.next
      ∧ g.mem.length ≤ g1.mem.length
      ∧ (∀ a, a < g.next → g1.lookup a = g.lookup a)
      ∧ ni.pairedItem = some idx
      ∧ ∃ U : Nat → Prop,
          (∀ a, U a → g.next ≤ a ∧ a < g1.next)
          ∧ (∀ a o, U a → g1.lookup a = some o → ObjIn o U)
          ∧ ValIn ni.json U
          ∧ (∀ m, readVal g (stdFuel g) [] it.json = some (some (.obj m)) →
              ∀ tv, primToJVal p = some tv →
              ∀ fuel, jheight (.obj (setKey m f tv)) ≤ fuel →
                readVal g1 fuel [] ni.json = some (some (.obj (setKey m f tv)))) := by
  intro g1 ni hok
  unfold buildItem at hok
  cases hread : readVal g (stdFuel g) [] it.json with
  | none => rw [hread] at hok; cases hok
  | some x =>
      rw [hread] at hok
      cases x with
      | none => cases hok
      | some t =>
          have hok2 : (match (allocJVal g t).2 with
              | JSVal.ref a => Except.ok
                  ((shallowCopyBinary (allocJVal g t).1 it.binary).1.setField a f
                      (JSVal.prim p),
                    (⟨JSVal.ref a, (shallowCopyBinary (allocJVal g t).1 it.binary).2,
                      some idx⟩ : HItem))
              | JSVal.prim _ => Except.error primAssignError)
              = Except.ok (g1, ni) := hok
          clear hok
          cases hv : (allocJVal g t).2 with
          | prim q => rw [hv] at hok2; cases hok2
          | ref aRoot =>
              rw [hv] at hok2
              cases hok2
              obtain ⟨heA, hvalA⟩ := allocJVal_spec t g
              rw [hv] at hvalA
              obtain ⟨hg1, hg2, hg3, hg4⟩ :=
                shallowCopyBinary_facts (allocJVal g t).1 it.binary
              have hwfA : Wf (allocJVal g t).1 := heA.wf hwf
              have hwfB : Wf (shallowCopyBinary (allocJVal g t).1 it.binary).1 :=
                hg4 hwfA
              have hwf1 : Wf ((shallowCopyBinary (allocJVal g t).1 it.binary).1.setField
                  aRoot f (.prim p)) :=
                setField_wf hwfB trivial
              have haRoot : g.next ≤ aRoot ∧ aRoot < (allocJVal g t).1.next := hvalA
              refine ⟨hwf1, ?_, ?_, ?_, rfl, ?_⟩
              · rw [setField_next]
                exact le_trans heA.next_le hg1
              · rw [setField_memLength]
                exact le_trans heA.memLength hg2
              · intro a ha
                rw [lookup_setField_ne _ (by omega) _ _,
                  hg3 a (Nat.lt_of_lt_of_le ha heA.next_le),
                  heA.lookup_old a ha]
              · refine ⟨fun x => g.next ≤ x ∧ x < (allocJVal g t).1.next, ?_, ?_, haRoot, ?_⟩
                · intro a ha
                  refine ⟨ha.1, ?_⟩
                  rw [setField_next]
                  exact Nat.lt_of_lt_of_le ha.2 hg1
                · intro a o ha hlk
                  by_cases haa : a = aRoot
                  · subst haa
                    rw [lookup_setField, if_pos rfl, hg3 a ha.2] at hlk
                    obtain ⟨o', hlk', ho'⟩ := heA.cover a ha.1 ha.2
                    rw [hlk', Option.map_some'] at hlk
                    cases hlk
                    exact ObjIn_setObjField ho' trivial
                  · rw [lookup_setField_ne _ haa _ _, hg3 a ha.2] at hlk
                    obtain ⟨o', hlk', ho'⟩ := heA.cover a ha.1 ha.2
                    rw [hlk'] at hlk
                    cases hlk
                    exact ho'
                · intro m hm tv hptv fuel hfuel
                  have ht : t = .obj m := by
                    injection hm with hm1
                    injection hm1
                  subst ht
                  have hnuF : noUndefFields m = true := by
                    have := readVal_noUndef g (stdFuel g) [] it.json (.obj m) hread
                    simpa [noUndef] using this
                  have hheap : (allocJVal g (JVal.obj m)).1
                      = Heap.mk ((allocFields g m).1.next + 1)
                          (((allocFields g m).1.next, JSObj.obj (allocFields g m).2)
                            :: (allocFields g m).1.mem) := by
                    simp [allocJVal]
                  have hroot : aRoot = (allocFields g m).1.next := by
                    have : (allocJVal g (JVal.obj m)).2
                        = JSVal.ref (allocFields g m).1.next := by
                      simp [allocJVal]
                    rw [hv] at this
                    injection this
                  obtain ⟨heF, hvalsF, hkeysF⟩ := allocFields_spec m g
                  obtain ⟨n, rfl⟩ : ∃ n, fuel = n + 1 := ⟨fuel - 1, by
                    have := jheight_pos (.obj (setKey m f tv)); omega⟩
                  have hfl : jheightFields (setKey m f tv) ≤ n := by
                    have heq : jheight (.obj (setKey m f tv))
                        = jheightFields (setKey m f tv) + 1 := by simp [jheight]
                    omega
                  have hanc1 : ∀ b ∈ [aRoot], b < g.next ∨ (allocFields g m).1.next ≤ b := by
                    intro b hb
                    rcases List.mem_cons.1 hb with hh | ht'
                    · exact Or.inr (by rw [hh, hroot])
                    · cases ht'
                  have hF2 := read_allocFields m g hnuF [aRoot] hanc1
                  -- transport the per-field reads from the fields heap to g1
                  have hagg : ∀ a, (g.next ≤ a ∧ a < (allocFields g m).1.next) →
                      ((shallowCopyBinary (allocJVal g (JVal.obj m)).1 it.binary).1.setField
                          aRoot f (.prim p)).lookup a
                        = (allocFields g m).1.lookup a := by
                    intro a ha
                    rw [lookup_setField_ne _ (by omega : a ≠ aRoot) _ _,
                      hg3 a (by
                        rw [hheap]
                        exact Nat.lt_succ_of_lt (hroot ▸ ha.2))]
                    rw [hheap, lookup_mk_cons, if_neg (by omega)]
                    rfl
                  have hclg : ∀ a o, (g.next ≤ a ∧ a < (allocFields g m).1.next) →
                      (allocFields g m).1.lookup a = some o →
                      ObjIn o (fun x => g.next ≤ x ∧ x < (allocFields g m).1.next) := by
                    intro a o ha hlk
                    obtain ⟨o', hlk', ho'⟩ := heF.cover a ha.1 ha.2
                    rw [hlk'] at hlk
                    cases hlk
                    exact ho'
                  have hF2g1 : List.Forall₂
                      (fun (q : String × JSVal) (pm : String × JVal) =>
                        q.1 = pm.1 ∧ ∀ fuel', jheight pm.2 ≤ fuel' →
                          readVal ((shallowCopyBinary (allocJVal g (JVal.obj m)).1
                              it.binary).1.setField aRoot f (.prim p)) fuel' [aRoot] q.2
                            = some (some pm.2))
                      (allocFields g m).2 m :=
                    forall2_imp_mem hF2 (fun q pm hq hr =>
                      ⟨hr.1, fun fuel' hfuel' => by
                        rw [readVal_congr (allocFields g m).1 _ _ hagg hclg fuel'
                          [aRoot] q.2 (hvalsF q hq)]
                        exact hr.2 fuel' hfuel'⟩)
                  have hwn : 1 ≤ n :=
                    le_trans (jheight_pos tv) (le_trans (jheight_le_setKey tv f m) hfl)
                  have hwread : readVal ((shallowCopyBinary (allocJVal g (JVal.obj m)).1
                      it.binary).1.setField aRoot f (.prim p)) n [aRoot] (.prim p)
                      = some (some tv) := by
                    obtain ⟨n', rfl⟩ : ∃ n', n = n' + 1 := ⟨n - 1, by omega⟩
                    simp [readVal, hptv]
                  have hupd := readFieldsWith_updFields
                    ((shallowCopyBinary (allocJVal g (JVal.obj m)).1 it.binary).1.setField
                      aRoot f (.prim p)) [aRoot] (.prim p) tv f hF2g1 n hfl hwread
                  have hlkroot : ((shallowCopyBinary (allocJVal g (JVal.obj m)).1
                      it.binary).1.setField aRoot f (.prim p)).lookup aRoot
                      = some (.obj (updFields (allocFields g m).2 f (.prim p))) := by
                    rw [lookup_setField, if_pos rfl,
                      hg3 aRoot (by rw [hheap]; exact hroot ▸ Nat.lt_succ_self _)]
                    rw [hheap, lookup_mk_cons, if_pos hroot.symm]
                    rfl
                  simp only [readVal]
                  rw [if_neg (List.not_mem_nil aRoot), hlkroot]
                  simp only
                  rw [hupd]
                  rfl

/-- A read that produces an object tree starts at a reference into the
allocated part of a well-formed heap. -/
theorem readVal_obj_root {g : Heap} (hwf : Wf g) :
    ∀ {fuel : Nat} {anc : List Nat} {v : JSVal} {m : List (String × JVal)},
      readVal g fuel anc v = some (some (.obj m)) →
      ∃ b, v = .ref b ∧ b < g.next := by
  intro fuel anc v m hr
  cases fuel with
  | zero => cases hr
  | succ n =>
      cases v with
      | prim p => cases p <;> cases hr
      | ref b =>
          refine ⟨b, rfl, ?_⟩
          simp only [readVal] at hr
          by_cases hmem : b ∈ anc
          · rw [if_pos hmem] at hr; cases hr
          · rw [if_neg hmem] at hr
            cases hlk : g.lookup b with
            | none => rw [hlk] at hr; cases hr
            | some o => exact (hwf.lookup hlk).1

/-- An item whose payload serializes to an object is built without
error. -/
theorem buildItem_ok (f : String) (tok : JSVal) (g : Heap) (idx : Nat)
    (it : HItem) {m : List (String × JVal)}
    (hm : readVal g (stdFuel g) [] it.json = some (some (.obj m))) :
    ∃ g1 ni, buildItem f tok g idx it = .ok (g1, ni) := by
  unfold buildItem
  rw [hm]
  have hres : (allocJVal g (JVal.obj m)).2
      = JSVal.ref (allocFields g m).1.next := by
    simp [allocJVal]
  show ∃ g1 ni, (match (allocJVal g (JVal.obj m)).2 with
      | JSVal.ref a => Except.ok
          ((shallowCopyBinary (allocJVal g (JVal.obj m)).1 it.binary).1.setField a f tok,
            (⟨JSVal.ref a, (shallowCopyBinary (allocJVal g (JVal.obj m)).1 it.binary).2,
              some idx⟩ : HItem))
      | JSVal.prim _ => Except.error primAssignError) = Except.ok (g1, ni)
  rw [hres]
  exact ⟨_, _, rfl⟩

/-- Well-formedness is preserved by allocating the continue-on-fail
error record. -/
theorem errRecord_wf {g : Heap} (hwf : Wf g) (msg : String) :
    Wf (g.alloc (.obj [("error", .prim (.str msg))])).1 := by
  intro q hq
  simp only [Heap.alloc] at hq
  rcases List.mem_cons.1 hq with hh | ht
  · subst hh
    refine ⟨Nat.lt_succ_self _, ?_⟩
    intro kv hkv
    rcases List.mem_cons.1 hkv with hh' | ht'
    · subst hh'; trivial
    · cases ht'
  · obtain ⟨h1, h2⟩ := hwf q ht
    exact ⟨Nat.lt_succ_of_lt h1, h2.mono_obj (fun x hx => Nat.lt_succ_of_lt hx)⟩

/-- The induction invariant of the item loop (step 4): the heap only
grows and old addresses are untouched; the output batch has one record
per input record, each tagged with its index; all output `json` roots
live in a fresh internally-closed region `U`; and each output whose
input payload serialized to an object reads back as that object with
the token merged in. -/
theorem enrichLoop_master (cof : Bool) (f : String) (p : JSPrim) :
    ∀ (items : List HItem) (g : Heap) (idx : Nat), Wf g →
    ∀ gr outs,
      enrichLoopG (buildItem f (.prim p)) cof g idx items = .ok (gr, outs) →
      Wf gr ∧ g.next ≤ gr.next ∧ g.mem.length ≤ gr.mem.length
      ∧ (∀ a, a < g.next → gr.lookup a = g.lookup a)
      ∧ outs.length = items.length
      ∧ (∀ j (hj : j < outs.length), (outs.get ⟨j, hj⟩).pairedItem = some (idx + j))
      ∧ ∃ U : Nat → Prop,
          (∀ a, U a → g.next ≤ a ∧ a < gr.next)
          ∧ (∀ a o, U a → gr.lookup a = some o → ObjIn o U)
          ∧ (∀ j (hj : j < outs.length), ValIn (outs.get ⟨j, hj⟩).json U)
          ∧ (∀ j (hj : j < outs.length) (hj' : j < items.length)
              (m : List (String × JVal)),
              readVal g (stdFuel g) [] ((items.get ⟨j, hj'⟩).json)
                = some (some (.obj m)) →
              ∀ tv, primToJVal p = some tv →
              ∀ fuel, jheight (.obj (setKey m f tv)) ≤ fuel →
                readVal gr fuel [] ((outs.get ⟨j, hj⟩).json)
                  = some (some (.obj (setKey m f tv)))) := by
  intro items
  induction items with
  | nil =>
      intro g idx hwf gr outs hok
      simp only [enrichLoopG] at hok
      cases hok
      refine ⟨hwf, le_refl _, le_refl _, fun a _ => rfl, rfl,
        fun j hj => absurd hj (Nat.not_lt_zero j),
        fun _ => False, fun a ha => absurd ha (fun h => h),
        fun a o ha => absurd ha (fun h => h),
        fun j hj => absurd hj (Nat.not_lt_zero j),
        fun j hj => absurd hj (Nat.not_lt_zero j)⟩
  | cons it rest ih =>
      intro g idx hwf gr outs hok
      simp only [enrichLoopG] at hok
      cases hb : buildItem f (.prim p) g idx it with
      | ok r =>
          obtain ⟨g1, ni⟩ := r
          rw [hb] at hok
          have hok2 : (match enrichLoopG (buildItem f (.prim p)) cof g1 (idx + 1) rest with
              | Except.ok (h', os) => Except.ok (h', ni :: os)
              | Except.error e => Except.error e) = Except.ok (gr, outs) := hok
          clear hok
          cases hrest : enrichLoopG (buildItem f (.prim p)) cof g1 (idx + 1) rest with
          | error e => rw [hrest] at hok2; cases hok2
          | ok pr =>
              obtain ⟨gr', outs'⟩ := pr
              rw [hrest] at hok2
              cases hok2
              obtain ⟨hwf1, hnext1, hlen1, hagree1, hpair1, U0, hU0b, hU0c, hU0v, hU0r⟩ :=
                buildItem_facts f p g idx it hwf g1 ni hb
              obtain ⟨hwfr, hnextr, hlenr, hagreer, hlenE, hpairR, Ur, hUrb, hUrc, hUrv, hUrr⟩ :=
                ih g1 (idx + 1) hwf1 gr outs' hrest
              have hcongr0 : ∀ fuel anc v, ValIn v U0 →
                  readVal gr fuel anc v = readVal g1 fuel anc v :=
                readVal_congr g1 gr U0
                  (fun a ha => hagreer a (hU0b a ha).2) hU0c
              have htrans : ∀ (v : JSVal), ValIn v (fun x => x < g.next) →
                  ∀ (m : List (String × JVal)),
                  readVal g (stdFuel g) [] v = some (some (.obj m)) →
                  readVal g1 (stdFuel g1) [] v = some (some (.obj m)) := by
                intro v hv m hm
                have heq : readVal g1 (stdFuel g) [] v
                    = readVal g (stdFuel g) [] v :=
                  readVal_congr g g1 (fun x => x < g.next) hagree1
                    (fun a o ha hlk => (hwf.lookup hlk).2) (stdFuel g) [] v hv
                exact readVal_mono g1 (stdFuel g) (stdFuel g1) [] v _
                  (Nat.succ_le_succ hlen1) (heq.trans hm)
              refine ⟨hwfr, le_trans hnext1 hnextr, le_trans hlen1 hlenr,
                (fun a ha => (hagreer a (Nat.lt_of_lt_of_le ha hnext1)).trans
                  (hagree1 a ha)), by simp [hlenE], ?_, ?_⟩
              · intro j hj
                cases j with
                | zero => simpa using hpair1
                | succ j =>
                    have hj' : j < outs'.length := by
                      simpa using Nat.lt_of_succ_lt_succ hj
                    have := hpairR j hj'
                    have harith : idx + 1 + j = idx + (j + 1) := by omega
                    simpa [List.get, harith] using this
              · refine ⟨fun x => U0 x ∨ Ur x, ?_, ?_, ?_, ?_⟩
                · intro a ha
                  rcases ha with h0 | h1
                  · exact ⟨(hU0b a h0).1, Nat.lt_of_lt_of_le (hU0b a h0).2 hnextr⟩
                  · exact ⟨le_trans hnext1 (hUrb a h1).1, (hUrb a h1).2⟩
                · intro a o ha hlk
                  rcases ha with h0 | h1
                  · rw [hagreer a (hU0b a h0).2] at hlk
                    exact (hU0c a o h0 hlk).mono_obj (fun x hx => Or.inl hx)
                  · exact (hUrc a o h1 hlk).mono_obj (fun x hx => Or.inr hx)
                · intro j hj
                  cases j with
                  | zero => exact hU0v.mono_val (fun x hx => Or.inl hx)
                  | succ j =>
                      have hj' : j < outs'.length := by
                        simpa using Nat.lt_of_succ_lt_succ hj
                      have := hUrv j hj'
                      simpa [List.get] using this.mono_val (fun x hx => Or.inr hx)
                · intro j hj hj' m hm tv hptv fuel hfuel
                  cases j with
                  | zero =>
                      have hread1 := hU0r m (by simpa [List.get] using hm) tv hptv fuel hfuel
                      have : readVal gr fuel [] ni.json = readVal g1 fuel [] ni.json :=
                        hcongr0 fuel [] ni.json hU0v
                      simp only [List.get]
                      rw [this]
                      exact hread1
                  | succ j =>
                      have hjo : j < outs'.length := by
                        simpa using Nat.lt_of_succ_lt_succ hj
                      have hji : j < rest.length := by
                        simpa using Nat.lt_of_succ_lt_succ hj'
                      have hmj : readVal g (stdFuel g) []
                          ((rest.get ⟨j, hji⟩).json) = some (some (.obj m)) := by
                        simpa [List.get] using hm
                      obtain ⟨b, hvb, hblt⟩ := readVal_obj_root hwf hmj
                      have hm1 : readVal g1 (stdFuel g1) []
                          ((rest.get ⟨j, hji⟩).json) = some (some (.obj m)) :=
                        htrans _ (by rw [hvb]; exact hblt) m hmj
                      have := hUrr j hjo hji m hm1 tv hptv fuel hfuel
                      simpa [List.get] using this
      | error e =>
          rw [hb] at hok
          have hok2 : (if cof = true then
              match enrichLoopG (buildItem f (.prim p)) cof
                  (g.alloc (.obj [("error", .prim (.str (cofMessage e)))])).1
                  (idx + 1) rest with
              | Except.ok (h', os) => Except.ok
                  (h', (⟨.ref g.next, none, some idx⟩ : HItem) :: os)
              | Except.error e' => Except.error e'
            else Except.error (catchNonContinue idx e)) = Except.ok (gr, outs) := hok
          clear hok
          cases cof with
          | false => simp at hok2
          | true =>
              rw [if_pos rfl] at hok2
              cases hrest : enrichLoopG (buildItem f (.prim p)) true
                  (g.alloc (.obj [("error", .prim (.str (cofMessage e)))])).1
                  (idx + 1) rest with
              | error e' => rw [hrest] at hok2; cases hok2
              | ok pr =>
                  obtain ⟨gr', outs'⟩ := pr
                  rw [hrest] at hok2
                  cases hok2
                  have hwfE : Wf (g.alloc
                      (.obj [("error", .prim (.str (cofMessage e)))])).1 :=
                    errRecord_wf hwf _
                  have hnextE : (g.alloc
                      (.obj [("error", .prim (.str (cofMessage e)))])).1.next
                      = g.next + 1 := rfl
                  have hagreeE : ∀ a, a < g.next →
                      (g.alloc (.obj [("error", .prim (.str (cofMessage e)))])).1.lookup a
                        = g.lookup a := by
                    intro a ha
                    rw [lookup_allocOne, if_neg (by omega)]
                  obtain ⟨hwfr, hnextr, hlenr, hagreer, hlenE, hpairR, Ur, hUrb, hUrc, hUrv, hUrr⟩ :=
                    ih _ (idx + 1) hwfE gr outs' hrest
                  have hUrb' : ∀ a, Ur a → g.next + 1 ≤ a ∧ a < gr.next := by
                    intro a ha
                    have := hUrb a ha
                    rw [hnextE] at this
                    exact this
                  refine ⟨hwfr, by omega, ?_, ?_, by simp [hlenE], ?_, ?_⟩
                  · have : g.mem.length ≤ (g.alloc
                        (.obj [("error", .prim (.str (cofMessage e)))])).1.mem.length := by
                      simp [Heap.alloc]
                    omega
                  · intro a ha
                    rw [hagreer a (by omega), hagreeE a ha]
                  · intro j hj
                    cases j with
                    | zero => simp [List.get]
                    | succ j =>
                        have hj' : j < outs'.length := by
                          simpa using Nat.lt_of_succ_lt_succ hj
                        have := hpairR j hj'
                        have harith : idx + 1 + j = idx + (j + 1) := by omega
                        simpa [List.get, harith] using this
                  · refine ⟨fun x => x = g.next ∨ Ur x, ?_, ?_, ?_, ?_⟩
                    · intro a ha
                      rcases ha with h0 | h1
                      · subst h0
                        exact ⟨le_refl _, by omega⟩
                      · exact ⟨by have := (hUrb' a h1).1; omega, (hUrb' a h1).2⟩
                    · intro a o ha hlk
                      rcases ha with h0 | h1
                      · subst h0
                        rw [hagreer g.next (by omega), lookup_allocOne, if_pos rfl] at hlk
                        cases hlk
                        intro kv hkv
                        rcases List.mem_cons.1 hkv with hh | ht
                        · subst hh; trivial
                        · cases ht
                      · exact (hUrc a o h1 hlk).mono_obj (fun x hx => Or.inr hx)
                    · intro j hj
                      cases j with
                      | zero => exact Or.inl rfl
                      | succ j =>
                          have hj' : j < outs'.length := by
                            simpa using Nat.lt_of_succ_lt_succ hj
                          have := hUrv j hj'
                          simpa [List.get] using this.mono_val (fun x hx => Or.inr hx)
                    · intro j hj hj' m hm tv hptv fuel hfuel
                      cases j with
                      | zero =>
                          exfalso
                          have hmj : readVal g (stdFuel g) [] it.json
                              = some (some (.obj m)) := by
                            simpa [List.get] using hm
                          obtain ⟨gx, nix, hbx⟩ := buildItem_ok f (.prim p) g idx it hmj
                          rw [hb] at hbx
                          cases hbx
                      | succ j =>
                          have hjo : j < outs'.length := by
                            simpa using Nat.lt_of_succ_lt_succ hj
                          have hji : j < rest.length := by
                            simpa using Nat.lt_of_succ_lt_succ hj'
                          have hmj : readVal g (stdFuel g) []
                              ((rest.get ⟨j, hji⟩).json) = some (some (.obj m)) := by
                            simpa [List.get] using hm
                          obtain ⟨b, hvb, hblt⟩ := readVal_obj_root hwf hmj
                          have heq : readVal (g.alloc
                              (.obj [("error", .prim (.str (cofMessage e)))])).1
                              (stdFuel g) [] ((rest.get ⟨j, hji⟩).json)
                              = readVal g (stdFuel g) [] ((rest.get ⟨j, hji⟩).json) :=
                            readVal_congr g _ (fun x => x < g.next) hagreeE
                              (fun a o ha hlk => (hwf.lookup hlk).2) (stdFuel g) [] _
                              (by rw [hvb]; exact hblt)
                          have hm1 : readVal (g.alloc
                              (.obj [("error", .prim (.str (cofMessage e)))])).1
                              (stdFuel (g.alloc
                                (.obj [("error", .prim (.str (cofMessage e)))])).1)
                              [] ((rest.get ⟨j, hji⟩).json) = some (some (.obj m)) := by
                            refine readVal_mono _ (stdFuel g) _ [] _ _ ?_ (heq.trans hmj)
                            simp [stdFuel, Heap.alloc]
                          have := hUrr j hjo hji m hm1 tv hptv fuel hfuel
                          simpa [List.get] using this

/-- With continue-on-fail active, the loop never aborts, whatever the
body does. -/
theorem enrichLoopG_total (build : Heap → Nat → HItem → Except JSError (Heap × HItem)) :
    ∀ (items : List HItem) (g : Heap) (idx : Nat),
      ∃ gr outs, enrichLoopG build true g idx items = .ok (gr, outs) := by
  intro items
  induction items with
  | nil => intro g idx; exact ⟨g, [], rfl⟩
  | cons it rest ih =>
      intro g idx
      cases hb : build g idx it with
      | ok r =>
          obtain ⟨g1, ni⟩ := r
          obtain ⟨gr, outs, hr⟩ := ih g1 (idx + 1)
          refine ⟨gr, ni :: outs, ?_⟩
          simp only [enrichLoopG]
          rw [hb]
          show (match enrichLoopG build true g1 (idx + 1) rest with
            | Except.ok (h', os) => Except.ok (h', ni :: os)
            | Except.error e => Except.error e) = Except.ok (gr, ni :: outs)
          rw [hr]
      | error e =>
          obtain ⟨gr, outs, hr⟩ :=
            ih (g.alloc (.obj [("error", .prim (.str (cofMessage e)))])).1 (idx + 1)
          refine ⟨gr, ⟨.ref g.next, none, some idx⟩ :: outs, ?_⟩
          simp only [enrichLoopG]
          rw [hb]
          show (if true = true then
              match enrichLoopG build true
                  (g.alloc (.obj [("error", .prim (.str (cofMessage e)))])).1
                  (idx + 1) rest with
              | Except.ok (h', os) => Except.ok
                  (h', (⟨.ref g.next, none, some idx⟩ : HItem) :: os)
              | Except.error e' => Except.error e'
            else Except.error (catchNonContinue idx e))
            = Except.ok (gr, (⟨.ref g.next, none, some idx⟩ : HItem) :: outs)
          rw [if_pos rfl, hr]

/-- When every input payload serializes to an object, the loop
succeeds under either failure mode. -/
theorem enrichLoop_ok (cof : Bool) (f : String) (p : JSPrim) :
    ∀ (items : List HItem) (g : Heap) (idx : Nat), Wf g →
      (∀ it ∈ items, ∃ m, readVal g (stdFuel g) [] it.json = some (some (.obj m))) →
      ∃ gr outs, enrichLoopG (buildItem f (.prim p)) cof g idx items = .ok (gr, outs) := by
  intro items
  induction items with
  | nil => intro g idx _ _; exact ⟨g, [], rfl⟩
  | cons it rest ih =>
      intro g idx hwf hread
      obtain ⟨m, hm⟩ := hread it (List.mem_cons_self _ _)
      obtain ⟨g1, ni, hb⟩ := buildItem_ok f (.prim p) g idx it hm
      obtain ⟨hwf1, hnext1, hlen1, hagree1, _⟩ :=
        buildItem_facts f p g idx it hwf g1 ni hb
      have hreadR : ∀ it2 ∈ rest, ∃ m2,
          readVal g1 (stdFuel g1) [] it2.json = some (some (.obj m2)) := by
        intro it2 hit2
        obtain ⟨m2, hm2⟩ := hread it2 (List.mem_cons_of_mem _ hit2)
        obtain ⟨b, hvb, hblt⟩ := readVal_obj_root hwf hm2
        refine ⟨m2, ?_⟩
        have heq : readVal g1 (stdFuel g) [] it2.json
            = readVal g (stdFuel g) [] it2.json :=
          readVal_congr g g1 (fun x => x < g.next) hagree1
            (fun a o ha hlk => (hwf.lookup hlk).2) (stdFuel g) [] _
            (by rw [hvb]; exact hblt)
        exact readVal_mono g1 (stdFuel g) (stdFuel g1) [] _ _
          (Nat.succ_le_succ hlen1) (heq.trans hm2)
      obtain ⟨gr, outs, hr⟩ := ih g1 (idx + 1) hwf1 hreadR
      refine ⟨gr, ni :: outs, ?_⟩
      simp only [enrichLoopG]
      rw [hb]
      show (match enrichLoopG (buildItem f (.prim p)) cof g1 (idx + 1) rest with
        | Except.ok (h', os) => Except.ok (h', ni :: os)
        | Except.error e => Except.error e) = Except.ok (gr, ni :: outs)
      rw [hr]

/-- Heap growth, old-address stability and index tagging of one
successful build step, with no well-formedness assumption and an
arbitrary token value. -/
theorem buildItem_grow (f : String) (tok : JSVal) (g : Heap) (idx : Nat)
    (it : HItem) :
    ∀ g1 ni, buildItem f tok g idx it = .ok (g1, ni) →
      g.next ≤ g1.next ∧ (∀ a, a < g.next → g1.lookup a = g.lookup a)
      ∧ ni.pairedItem = some idx := by
  intro g1 ni hok
  unfold buildItem at hok
  cases hread : readVal g (stdFuel g) [] it.json with
  | none => rw [hread] at hok; cases hok
  | some x =>
      rw [hread] at hok
      cases x with
      | none => cases hok
      | some t =>
          have hok2 : (match (allocJVal g t).2 with
              | JSVal.ref a => Except.ok
                  ((shallowCopyBinary (allocJVal g t).1 it.binary).1.setField a f tok,
                    (⟨JSVal.ref a, (shallowCopyBinary (allocJVal g t).1 it.binary).2,
                      some idx⟩ : HItem))
              | JSVal.prim _ => Except.error primAssignError)
              = Except.ok (g1, ni) := hok
          clear hok
          cases hv : (allocJVal g t).2 with
          | prim q => rw [hv] at hok2; cases hok2
          | ref aRoot =>
              rw [hv] at hok2
              cases hok2
              obtain ⟨heA, hvalA⟩ := allocJVal_spec t g
              rw [hv] at hvalA
              obtain ⟨hg1, hg2, hg3, _⟩ :=
                shallowCopyBinary_facts (allocJVal g t).1 it.binary
              refine ⟨?_, ?_, rfl⟩
              · rw [setField_next]
                exact le_trans heA.next_le hg1
              · intro a ha
                rw [lookup_setField_ne _ (by
                    have := hvalA.1
                    omega) _ _,
                  hg3 a (Nat.lt_of_lt_of_le ha heA.next_le),
                  heA.lookup_old a ha]

/-- Growth, stability, length and index alignment for the whole loop
under continue-on-fail, with no well-formedness assumption. -/
theorem enrichLoop_grow_pair (f : String) (tok : JSVal) :
    ∀ (items : List HItem) (g : Heap) (idx : Nat) (gr : Heap) (outs : List HItem),
      enrichLoopG (buildItem f tok) true g idx items = .ok (gr, outs) →
      g.next ≤ gr.next ∧ (∀ a, a < g.next → gr.lookup a = g.lookup a)
      ∧ outs.length = items.length
      ∧ ∀ j (hj : j < outs.length), (outs.get ⟨j, hj⟩).pairedItem = some (idx + j) := by
  intro items
  induction items with
  | nil =>
      intro g idx gr outs hok
      simp only [enrichLoopG] at hok
      cases hok
      exact ⟨le_refl _, fun a _ => rfl, rfl,
        fun j hj => absurd hj (Nat.not_lt_zero j)⟩
  | cons it rest ih =>
      intro g idx gr outs hok
      simp only [enrichLoopG] at hok
      cases hb : buildItem f tok g idx it with
      | ok r =>
          obtain ⟨g1, ni⟩ := r
          rw [hb] at hok
          have hok2 : (match enrichLoopG (buildItem f tok) true g1 (idx + 1) rest with
              | Except.ok (h', os) => Except.ok (h', ni :: os)
              | Except.error e => Except.error e) = Except.ok (gr, outs) := hok
          clear hok
          cases hrest : enrichLoopG (buildItem f tok) true g1 (idx + 1) rest with
          | error e => rw [hrest] at hok2; cases hok2
          | ok pr =>
              obtain ⟨grr, outs'⟩ := pr
              rw [hrest] at hok2
              cases hok2
              obtain ⟨hnext1, hagree1, hpair1⟩ := buildItem_grow f tok g idx it g1 ni hb
              obtain ⟨hnextr, hagreer, hlenr, hpairr⟩ := ih g1 (idx + 1) gr outs' hrest
              refine ⟨le_trans hnext1 hnextr,
                (fun a ha => (hagreer a (Nat.lt_of_lt_of_le ha hnext1)).trans
                  (hagree1 a ha)), by simp [hlenr], ?_⟩
              intro j hj
              cases j with
              | zero => simpa using hpair1
              | succ j =>
                  have hj' : j < outs'.length := by
                    simpa using Nat.lt_of_succ_lt_succ hj
                  have := hpairr j hj'
                  have harith : idx + 1 + j = idx + (j + 1) := by omega
                  simpa [List.get, harith] using this
      | error e =>
          rw [hb] at hok
          have hok2 : (if true = true then
              match enrichLoopG (buildItem f tok) true
                  (g.alloc (.obj [("error", .prim (.str (cofMessage e)))])).1
                  (idx + 1) rest with
              | Except.ok (h', os) => Except.ok
                  (h', (⟨.ref g.next, none, some idx⟩ : HItem) :: os)
              | Except.error e' => Except.error e'
            else Except.error (catchNonContinue idx e)) = Except.ok (gr, outs) := hok
          clear hok
          rw [if_pos rfl] at hok2
          cases hrest : enrichLoopG (buildItem f tok) true
              (g.alloc (.obj [("error", .prim (.str (cofMessage e)))])).1
              (idx + 1) rest with
          | error e' => rw [hrest] at hok2; cases hok2
          | ok pr =>
              obtain ⟨grr, outs'⟩ := pr
              rw [hrest] at hok2
              cases hok2
              obtain ⟨hnextr, hagreer, hlenr, hpairr⟩ := ih _ (idx + 1) gr outs' hrest
              have hnextE : (g.alloc
                  (.obj [("error", .prim (.str (cofMessage e)))])).1.next
                  = g.next + 1 := rfl
              refine ⟨by omega, ?_, by simp [hlenr], ?_⟩
              · intro a ha
                rw [hagreer a (by omega), lookup_allocOne, if_neg (by omega)]
              · intro j hj
                cases j with
                | zero => simp [List.get]
                | succ j =>
                    have hj' : j < outs'.length := by
                      simpa using Nat.lt_of_succ_lt_succ hj
                    have := hpairr j hj'
                    have harith : idx + 1 + j = idx + (j + 1) := by omega
                    simpa [List.get, harith] using this

/-- Claim C4: under continue-on-failure, the item loop always
completes; the output has exactly one record per input record and the
record at position `j` carries position-tag `idx + j` — in particular
a failing item is replaced, at its own position, by an error-record
`{json: {error: message}, pairedItem: {item: idx}}` whose contents are
in the final heap, while the loop goes on with the remaining items. -/
theorem claim4_index_alignment (f : String) (tok : JSVal) :
    (∀ (items : List HItem) (g : Heap) (idx : Nat),
      ∃ gr outs, enrichLoopG (buildItem f tok) true g idx items = .ok (gr, outs)
        ∧ outs.length = items.length
        ∧ ∀ j (hj : j < outs.length), (outs.get ⟨j, hj⟩).pairedItem = some (idx + j))
    ∧ (∀ (g : Heap) (idx : Nat) (it : HItem) (rest : List HItem) (e : JSError),
        buildItem f tok g idx it = .error e →
        ∃ gr outs', enrichLoopG (buildItem f tok) true g idx (it :: rest)
            = .ok (gr, (⟨.ref g.next, none, some idx⟩ : HItem) :: outs')
          ∧ gr.lookup g.next
              = some (.obj [("error", .prim (.str (cofMessage e)))])) := by
  constructor
  · intro items g idx
    obtain ⟨gr, outs, hok⟩ := enrichLoopG_total (buildItem f tok) items g idx
    obtain ⟨_, _, hlen, hpair⟩ := enrichLoop_grow_pair f tok items g idx gr outs hok
    exact ⟨gr, outs, hok, hlen, hpair⟩
  · intro g idx it rest e hb
    obtain ⟨gr, outs, hok⟩ := enrichLoopG_total (buildItem f tok) rest
      (g.alloc (.obj [("error", .prim (.str (cofMessage e)))])).1 (idx + 1)
    obtain ⟨hnextr, hagreer, _, _⟩ :=
      enrichLoop_grow_pair f tok rest _ (idx + 1) gr outs hok
    refine ⟨gr, outs, ?_, ?_⟩
    · simp only [enrichLoopG]
      rw [hb]
      show (if true = true then
          match enrichLoopG (buildItem f tok) true
              (g.alloc (.obj [("error", .prim (.str (cofMessage e)))])).1
              (idx + 1) rest with
          | Except.ok (h', os) => Except.ok
              (h', (⟨.ref g.next, none, some idx⟩ : HItem) :: os)
          | Except.error e' => Except.error e'
        else Except.error (catchNonContinue idx e))
        = Except.ok (gr, (⟨.ref g.next, none, some idx⟩ : HItem) :: outs)
      rw [if_pos rfl, hok]
    · rw [hagreer g.next (by
        show g.next < (g.alloc (.obj [("error", .prim (.str (cofMessage e)))])).1.next
        exact Nat.lt_succ_self _)]
      rw [lookup_allocOne, if_pos rfl]

/-- Witness for `claim4_index_alignment`: a batch whose only item has
a circular payload still yields one output record, the error-record,
tagged with its own index. -/
theorem claim4_index_alignment_witness :
    ∃ gr outs', enrichLoopG (buildItem "accessToken" (.prim (.str "T"))) true
        cyclicHeap 0 [⟨.ref 0, none, none⟩]
        = .ok (gr, (⟨.ref cyclicHeap.next, none, some 0⟩ : HItem) :: outs')
      ∧ gr.lookup cyclicHeap.next
          = some (.obj [("error",
              .prim (.str "Converting circular structure to JSON"))]) :=
  (claim4_index_alignment "accessToken" (.prim (.str "T"))).2 cyclicHeap 0
    ⟨.ref 0, none, none⟩ [] circularError rfl

/-- Claim C7: without continue-on-failure, a throwing loop body aborts
the whole batch at once with the error enriched by the failing item's
index: an error that already carries a structured `context` object is
rethrown as the same error with only `context.itemIndex` set; any
other error is wrapped in a `NodeOperationError` carrying the index
and the original error's string form. -/
theorem claim7_abort_enriches_index :
    (∀ (build : Heap → Nat → HItem → Except JSError (Heap × HItem))
      (g : Heap) (idx : Nat) (it : HItem) (rest : List HItem) (e : JSError),
      build g idx it = .error e →
      enrichLoopG build false g idx (it :: rest) = .error (catchNonContinue idx e))
    ∧ (∀ (idx : Nat) (e : JSError) (c : ErrCtx), e.context = some c →
        catchNonContinue idx e
          = ⟨e.name, e.message, some ⟨some idx, c.extra⟩⟩)
    ∧ (∀ (idx : Nat) (e : JSError), e.context = none →
        catchNonContinue idx e
          = ⟨"NodeOperationError",
              if e.message = "" then "Error processing item" else e.message,
              some ⟨some idx, [("message", errToString e)]⟩⟩) := by
  refine ⟨?_, ?_, ?_⟩
  · intro build g idx it rest e hb
    simp only [enrichLoopG]
    rw [hb]
    show (if false = true then
        match enrichLoopG build false
            (g.alloc (.obj [("error", .prim (.str (cofMessage e)))])).1
            (idx + 1) rest with
        | Except.ok (h', os) => Except.ok
            (h', (⟨.ref g.next, none, some idx⟩ : HItem) :: os)
        | Except.error e' => Except.error e'
      else Except.error (catchNonContinue idx e))
      = Except.error (catchNonContinue idx e)
    rw [if_neg (by simp)]
  · intro idx e c hc
    simp [catchNonContinue, hc]
  · intro idx e hc
    simp [catchNonContinue, hc]

/-- Witness for `claim7_abort_enriches_index`: a body that throws an
error carrying a structured context aborts the batch with the same
error, its `itemIndex` set to the failing index and the rest of the
context preserved. -/
theorem claim7_abort_enriches_index_witness :
    enrichLoopG (fun _ _ _ => .error ⟨"ApiError", "boom", some ⟨none, [("cause", "x")]⟩⟩)
        false ⟨0, []⟩ 0 [⟨.prim .null, none, none⟩, ⟨.prim .null, none, none⟩]
      = .error ⟨"ApiError", "boom", some ⟨some 0, [("cause", "x")]⟩⟩ := by
  have h1 := claim7_abort_enriches_index.1
    (fun _ _ _ => .error ⟨"ApiError", "boom", some ⟨none, [("cause", "x")]⟩⟩)
    ⟨0, []⟩ 0 ⟨.prim .null, none, none⟩ [⟨.prim .null, none, none⟩]
    ⟨"ApiError", "boom", some ⟨none, [("cause", "x")]⟩⟩ rfl
  have h2 := claim7_abort_enriches_index.2.1 0
    ⟨"ApiError", "boom", some ⟨none, [("cause", "x")]⟩⟩ ⟨none, [("cause", "x")]⟩ rfl
  rw [h1, h2]

/-- Claim C2: with a consistently-answering credential store whose
record yields the non-empty token string `T`, `execute` succeeds on
every batch of object-payload items, returns exactly one output
record per input record, and the deep value of each output payload is
the corresponding input payload with the one binding
`f ↦ T` merged in. -/
theorem claim2_enrich_adds_token (env : Env) (c : JVal) (T : String)
    (hc : ∀ n, env.creds n = .ok c)
    (htc : truthy c = true)
    (hx : extractToken c = .str T)
    (hT : T ≠ "")
    (h : Heap) (hwf : Wf h) (items : List HItem)
    (hitems : ∀ it ∈ items, ∃ m,
      readVal h (stdFuel h) [] it.json = some (some (.obj m)))
    (cof : Bool) (f : String) (d0 : String) :
    ∃ h' outs, execute env h items cof f d0 = .ok h' outs
      ∧ outs.length = items.length
      ∧ ∀ j (hj : j < outs.length) (hj' : j < items.length)
          (m : List (String × JVal)),
          readVal h (stdFuel h) [] ((items.get ⟨j, hj'⟩).json)
            = some (some (.obj m)) →
          ∀ fuel, jheight (.obj (setKey m f (.str T))) ≤ fuel →
            readVal h' fuel [] ((outs.get ⟨j, hj⟩).json)
              = some (some (.obj (setKey m f (.str T)))) := by
  have hcf := credentialFetch_const env c hc (.str d0)
  unfold execute executeWith
  rw [hcf]
  have htok : truthy (extractToken c) = true := by
    rw [hx]
    simpa [truthy] using hT
  show ∃ h' outs, (if truthy c = true then
      if truthy (extractToken c) = true then
        match enrichLoop cof f (allocJVal h (extractToken c)).2
            (allocJVal h (extractToken c)).1 0 items with
        | Except.ok (h', outs) => ExecResult.ok h' outs
        | Except.error e => ExecResult.fatal e
      else ExecResult.fatal (nodeOpError noTokenMsg)
    else ExecResult.fatal (nodeOpError noCredMsg)) = ExecResult.ok h' outs
    ∧ outs.length = items.length
    ∧ ∀ j (hj : j < outs.length) (hj' : j < items.length)
        (m : List (String × JVal)),
        readVal h (stdFuel h) [] ((items.get ⟨j, hj'⟩).json)
          = some (some (.obj m)) →
        ∀ fuel, jheight (.obj (setKey m f (.str T))) ≤ fuel →
          readVal h' fuel [] ((outs.get ⟨j, hj⟩).json)
            = some (some (.obj (setKey m f (.str T))))
  rw [htc, if_pos rfl, htok, if_pos rfl]
  have halloc : allocJVal h (extractToken c) = (h, .prim (.str T)) := by
    rw [hx]
    simp [allocJVal]
  rw [halloc]
  obtain ⟨gr, outs, hloop⟩ := enrichLoop_ok cof f (.str T) items h 0 hwf hitems
  have hloop' : enrichLoop cof f (.prim (.str T)) h 0 items = .ok (gr, outs) := hloop
  rw [hloop']
  obtain ⟨_, _, _, _, hlen, _, U, _, _, _, hreads⟩ :=
    enrichLoop_master cof f (.str T) items h 0 hwf gr outs hloop
  refine ⟨gr, outs, rfl, hlen, ?_⟩
  intro j hj hj' m hm fuel hfuel
  exact hreads j hj hj' m hm (.str T) rfl fuel hfuel

/-- Witness for `claim2_enrich_adds_token` on the spec's scenario:
`[{data:{foo:1}}]` with token `"abc123"` under field name
`"accessToken"`. -/
theorem claim2_enrich_adds_token_witness :
    ∃ h' outs, execute (constEnv (.obj [("accessToken", .str "abc123")]))
        scenarioHeap [⟨.ref 0, none, none⟩] false "accessToken" ""
        = .ok h' outs
      ∧ outs.length = ([⟨.ref 0, none, none⟩] : List HItem).length
      ∧ ∀ j (hj : j < outs.length)
          (hj' : j < ([⟨.ref 0, none, none⟩] : List HItem).length)
          (m : List (String × JVal)),
          readVal scenarioHeap (stdFuel scenarioHeap) []
              ((([⟨.ref 0, none, none⟩] : List HItem).get ⟨j, hj'⟩).json)
            = some (some (.obj m)) →
          ∀ fuel, jheight (.obj (setKey m "accessToken" (.str "abc123"))) ≤ fuel →
            readVal h' fuel [] ((outs.get ⟨j, hj⟩).json)
              = some (some (.obj (setKey m "accessToken" (.str "abc123")))) :=
  claim2_enrich_adds_token (constEnv (.obj [("accessToken", .str "abc123")]))
    (.obj [("accessToken", .str "abc123")]) "abc123" (fun _ => rfl) rfl rfl
    (by decide) scenarioHeap (by decide) [⟨.ref 0, none, none⟩]
    (by
      intro it hit
      rcases List.mem_singleton.1 hit with rfl
      exact ⟨[("foo", .num 1)], rfl⟩)
    false "accessToken" ""

/-- A key whose every occurrence serializes to `undefined` is absent
from the serialized field list. -/
theorem readFieldsWith_undef_drop (rv : JSVal → Option (Option JVal))
    (k : String) :
    ∀ (fs : List (String × JSVal)) (m : List (String × JVal)),
      readFieldsWith rv fs = some m →
      (∀ q ∈ fs, q.1 = k → (rv q.2 = some none ∨ rv q.2 = none)) →
      k ∉ m.map Prod.fst := by
  intro fs
  induction fs with
  | nil =>
      intro m hm _
      simp only [readFieldsWith] at hm
      cases hm
      simp
  | cons q rest ih =>
      intro m hm hall
      obtain ⟨k', v⟩ := q
      simp only [readFieldsWith] at hm
      cases hv : rv v with
      | none => rw [hv] at hm; cases hm
      | some x =>
          rw [hv] at hm
          cases x with
          | none =>
              exact ih m hm (fun q2 hq2 hk2 => hall q2 (List.mem_cons_of_mem _ hq2) hk2)
          | some w =>
              have hm2 : (readFieldsWith rv rest).map (fun l => (k', w) :: l)
                  = some m := hm
              cases hrest : readFieldsWith rv rest with
              | none => rw [hrest] at hm2; cases hm2
              | some l =>
                  rw [hrest, Option.map_some'] at hm2
                  cases hm2
                  have hne : k' ≠ k := by
                    intro hkk
                    rcases hall (k', v) (List.mem_cons_self _ _) hkk with hu | hu <;>
                      rw [hu] at hv <;> cases hv
                  intro hmem
                  rcases List.mem_cons.1 hmem with hh | ht
                  · exact hne hh.symm
                  · exact ih l hrest
                      (fun q2 hq2 hk2 => hall q2 (List.mem_cons_of_mem _ hq2) hk2) ht

/-- Claim C10: the per-item deep copy is a JSON round-trip, so (1) for
a JSON-representable payload reading back as the object `m`, the build
succeeds and the copy reads back as `m` plus the token binding; (2) a
stored key whose value is `undefined` (not JSON-representable) is
dropped: if every occurrence of key `k` in the stored payload object is
`undefined`-valued and the payload is present with that key, the
serialized copy omits `k`, so the copy differs from the input; (3) a
payload that cannot be serialized (a circular structure) throws, so
that item takes the per-item error path instead of being enriched:
under continue-on-fail the loop yields the error record for it. -/
theorem claim10_roundtrip_representability (f : String) (p : JSPrim) (tv : JVal)
    (hp : primToJVal p = some tv) (g : Heap) (hwf : Wf g) (idx : Nat) (it : HItem) :
    (∀ m, readVal g (stdFuel g) [] it.json = some (some (.obj m)) →
      ∃ g1 ni, buildItem f (.prim p) g idx it = .ok (g1, ni)
        ∧ ∀ fuel, jheight (.obj (setKey m f tv)) ≤ fuel →
            readVal g1 fuel [] ni.json = some (some (.obj (setKey m f tv))))
    ∧ (∀ (b : Nat) (fs : List (String × JSVal)) (m : List (String × JVal))
        (k : String) (fuel : Nat),
        g.lookup b = some (.obj fs) →
        readVal g fuel [] (.ref b) = some (some (.obj m)) →
        k ∈ fs.map Prod.fst →
        (∀ q ∈ fs, q.1 = k → q.2 = .prim .undef) →
        k ∉ m.map Prod.fst)
    ∧ (readVal g (stdFuel g) [] it.json = none →
        buildItem f (.prim p) g idx it = .error circularError
        ∧ enrichLoopG (buildItem f (.prim p)) true g idx [it]
            = .ok ((g.alloc (.obj [("error",
                .prim (.str (cofMessage circularError)))])).1,
              [⟨.ref g.next, none, some idx⟩])) := by
  refine ⟨?_, ?_, ?_⟩
  · intro m hm
    obtain ⟨g1, ni, hb⟩ := buildItem_ok f (.prim p) g idx it hm
    obtain ⟨_, _, _, _, _, U, _, _, _, hval⟩ :=
      buildItem_facts f p g idx it hwf g1 ni hb
    exact ⟨g1, ni, hb, fun fuel hfu => hval m hm tv hp fuel hfu⟩
  · intro b fs m k fuel hlk hr _ hall
    cases fuel with
    | zero => cases hr
    | succ n =>
        simp only [readVal] at hr
        rw [if_neg (List.not_mem_nil b), hlk] at hr
        cases hfs : readFieldsWith (readVal g n [b]) fs with
        | none => simp only [hfs, Option.map_none'] at hr; cases hr
        | some l =>
            simp only [hfs, Option.map_some', Option.some.injEq] at hr
            cases hr
            refine readFieldsWith_undef_drop (readVal g n [b]) k fs m hfs ?_
            intro q hq hk
            rw [hall q hq hk]
            cases n with
            | zero => exact Or.inr rfl
            | succ n' => exact Or.inl rfl
  · intro hnone
    have hb : buildItem f (.prim p) g idx it = .error circularError := by
      unfold buildItem
      rw [hnone]
    refine ⟨hb, ?_⟩
    simp only [enrichLoopG, hb]
    simp

/-- Witness for `claim10_roundtrip_representability`: the heap holds
`{a: 1, u: undefined}`; its serialization drops the key `u`, which
the stored object contains. -/
theorem claim10_roundtrip_representability_witness :
    primToJVal (.str "tok") = some (.str "tok")
    ∧ Wf (⟨1, [(0, .obj [("a", .prim (.num 1)),
        ("u", .prim .undef)])]⟩ : Heap)
    ∧ "u" ∈ (([("a", JSVal.prim (.num 1)),
        ("u", JSVal.prim .undef)] : List (String × JSVal)).map Prod.fst)
    ∧ readVal (⟨1, [(0, .obj [("a", .prim (.num 1)),
        ("u", .prim .undef)])]⟩ : Heap) 2 [] (.ref 0)
      = some (some (.obj [("a", .num 1)]))
    ∧ "u" ∉ (([("a", JVal.num 1)] : List (String × JVal)).map Prod.fst) :=
  ⟨rfl, by decide, by decide, rfl,
    (claim10_roundtrip_representability "accessToken" (.str "tok") (.str "tok")
        rfl (⟨1, [(0, .obj [("a", .prim (.num 1)), ("u", .prim .undef)])]⟩ : Heap)
        (by decide) 0 ⟨.ref 0, none, none⟩).2.1
      0 [("a", .prim (.num 1)), ("u", .prim .undef)] [("a", .num 1)] "u" 2
      rfl rfl (by decide) (by decide)⟩

/-- Reachable addresses stay inside a reference-closed region. -/
theorem Reach.in_region {h : Heap} {U : Nat → Prop}
    (hcl : ∀ a o, U a → h.lookup a = some o → ObjIn o U) :
    ∀ {v : JSVal} {b : Nat}, Reach h v b → ValIn v U → U b := by
  intro v b hr
  induction hr with
  | here a => intro hv; exact hv
  | objField a b fs kv hlk hmem _ ih => intro hv; exact ih (hcl a _ hv hlk kv hmem)
  | arrElem a b es v hlk hmem _ ih => intro hv; exact ih (hcl a _ hv hlk v hmem)

/-- Claim C3: the item loop never mutates its input records — every
input payload reads back unchanged, all fuels — and outputs share no
mutable substructure with inputs: mutating any address reachable from
an output payload leaves every input payload's deep value as it was
before the call, and mutating any address reachable from an input
payload leaves every output payload's deep value unchanged. -/
theorem claim3_no_input_mutation (cof : Bool) (f : String) (p : JSPrim)
    (items : List HItem) (g : Heap) (hwf : Wf g)
    (hin : ∀ it ∈ items, ValIn it.json (fun x => x < g.next))
    (gr : Heap) (outs : List HItem)
    (hok : enrichLoopG (buildItem f (.prim p)) cof g 0 items = .ok (gr, outs)) :
    (∀ it ∈ items, ∀ fuel, readVal gr fuel [] it.json = readVal g fuel [] it.json)
    ∧ (∀ j (hj : j < outs.length) (a : Nat), Reach gr ((outs.get ⟨j, hj⟩).json) a →
        ∀ (k : String) (w : JSVal), ∀ it2 ∈ items, ∀ fuel,
          readVal (gr.setField a k w) fuel [] it2.json
            = readVal g fuel [] it2.json)
    ∧ (∀ (a : Nat), ∀ it2 ∈ items, Reach g it2.json a →
        ∀ (k : String) (w : JSVal) (j : Nat) (hj : j < outs.length) (fuel : Nat),
          readVal (gr.setField a k w) fuel [] ((outs.get ⟨j, hj⟩).json)
            = readVal gr fuel [] ((outs.get ⟨j, hj⟩).json)) := by
  obtain ⟨hwfr, hnext, _, hagree, _, _, U, hUb, hUc, hUv, _⟩ :=
    enrichLoop_master cof f p items g 0 hwf gr outs hok
  have hclow : ∀ a o, a < g.next → g.lookup a = some o →
      ObjIn o (fun x => x < g.next) :=
    fun a o _ hlk => (hwf.lookup hlk).2
  refine ⟨?_, ?_, ?_⟩
  · intro it hit fuel
    exact readVal_congr g gr (fun x => x < g.next) hagree hclow fuel [] it.json
      (hin it hit)
  · intro j hj a hreach k w it2 hit2 fuel
    have hUa : U a := Reach.in_region hUc hreach (hUv j hj)
    have hge : g.next ≤ a := (hUb a hUa).1
    have hag2 : ∀ a', a' < g.next →
        (gr.setField a k w).lookup a' = g.lookup a' := by
      intro a' ha'
      rw [lookup_setField_ne _ (by omega) _ _]
      exact hagree a' ha'
    exact readVal_congr g (gr.setField a k w) (fun x => x < g.next) hag2 hclow
      fuel [] it2.json (hin it2 hit2)
  · intro a it2 hit2 hreach k w j hj fuel
    have halow : a < g.next :=
      Reach.in_region hclow hreach (hin it2 hit2)
    have hag2 : ∀ a', U a' → (gr.setField a k w).lookup a' = gr.lookup a' := by
      intro a' ha'
      have := (hUb a' ha').1
      rw [lookup_setField_ne _ (by omega) _ _]
    exact readVal_congr gr (gr.setField a k w) U hag2 hUc fuel []
      ((outs.get ⟨j, hj⟩).json) (hUv j hj)

/-- Witness for `claim3_no_input_mutation` on the scenario batch:
the loop succeeds on `[{foo: 1}]` and the input payload at address 0
still reads back as `{foo: 1}` afterwards. -/
theorem claim3_no_input_mutation_witness :
    enrichLoopG (buildItem "accessToken" (.prim (.str "abc123"))) false
        scenarioHeap 0 [⟨.ref 0, none, none⟩]
      = .ok (⟨2, [(1, .obj [("foo", .prim (.num 1)),
            ("accessToken", .prim (.str "abc123"))]),
          (0, .obj [("foo", .prim (.num 1))])]⟩,
        [⟨.ref 1, none, some 0⟩])
    ∧ readVal (⟨2, [(1, .obj [("foo", .prim (.num 1)),
            ("accessToken", .prim (.str "abc123"))]),
          (0, .obj [("foo", .prim (.num 1))])]⟩ : Heap) 2 [] (.ref 0)
      = readVal scenarioHeap 2 [] (.ref 0) :=
  ⟨rfl,
    (claim3_no_input_mutation false "accessToken" (.str "abc123")
        [⟨.ref 0, none, none⟩] scenarioHeap (by decide) (by decide)
        _ [⟨.ref 1, none, some 0⟩] rfl).1
      ⟨.ref 0, none, none⟩ (List.mem_singleton.2 rfl) 2⟩

/-- Witness for `claim8_refresh_never_aborts` at a concrete
environment. -/
theorem claim8_refresh_never_aborts_witness :
    (refreshPhase (constEnv (.obj [("token", .str "t")])) (.str "")).nextCall ≤ 2
    ∧ execute { constEnv (.obj [("token", .str "t")]) with probe := .error circularError }
        ⟨0, []⟩ [] true "accessToken" ""
      = execute (constEnv (.obj [("token", .str "t")])) ⟨0, []⟩ [] true "accessToken" "" :=
  ⟨claim8_refresh_never_aborts.1 (constEnv (.obj [("token", .str "t")])) (.str ""),
   claim8_refresh_never_aborts.2.2 (constEnv (.obj [("token", .str "t")]))
     (.obj [("token", .str "t")]) (fun _ => rfl) ⟨0, []⟩ [] true "accessToken" ""
     (.error circularError)⟩

end OAuth2Token
